import Mathlib

/-!
Verification development for the tag-based inverted index query engine
(`engine/index/tsi/search.go` and the `TagSetInfo` / `GroupSeries` grouping
code) of the openGemini time-series database.

The sorted merge-set substrate is modelled as a sorted list of byte rows
(`List Nat` per row); `Seek(p)` positions a cursor at the first row not
lexicographically below `p`, and `NextItem` walks rows in order.  Scan
routines from the source are translated into pure recursive functions over
that list; fallible operations return `Except Err`.
-/

namespace TSI

/-- A byte string: each element is one byte (kept as `Nat`; the scans only
compare and copy bytes, so no modular arithmetic is needed except where the
source increments a byte, which is guarded by `< 0xff`). -/
abbrev Bytes := List Nat

/-- Lexicographic strict order on byte strings, as the merge-set substrate
orders its rows. -/
def lexLt : Bytes → Bytes → Bool
  | [], [] => false
  | [], _ :: _ => true
  | _ :: _, [] => false
  | a :: as, b :: bs => decide (a < b) || (decide (a = b) && lexLt as bs)

/-- `hasPfx p l` is `bytes.HasPrefix(l, p)`. -/
def hasPfx : Bytes → Bytes → Bool
  | [], _ => true
  | _ :: _, [] => false
  | a :: as, b :: bs => decide (a = b) && hasPfx as bs

theorem lexLt_nil_right (a : Bytes) : lexLt a [] = false := by
  cases a <;> rfl

theorem lexLt_irrefl (a : Bytes) : lexLt a a = false := by
  induction a with
  | nil => rfl
  | cons x xs ih => simp [lexLt, ih]

theorem lexLt_trans {a b c : Bytes} (h1 : lexLt a b = true) (h2 : lexLt b c = true) :
    lexLt a c = true := by
  induction a generalizing b c with
  | nil =>
    cases b with
    | nil => simp [lexLt] at h1
    | cons y ys =>
      cases c with
      | nil => simp [lexLt] at h2
      | cons z zs => simp [lexLt]
  | cons x xs ih =>
    cases b with
    | nil => simp [lexLt] at h1
    | cons y ys =>
      cases c with
      | nil => simp [lexLt] at h2
      | cons z zs =>
        simp only [lexLt, Bool.or_eq_true, Bool.and_eq_true, decide_eq_true_eq] at h1 h2 ⊢
        rcases h1 with h1 | ⟨rfl, h1⟩
        · rcases h2 with h2 | ⟨rfl, h2⟩
          · exact Or.inl (Nat.lt_trans h1 h2)
          · exact Or.inl h1
        · rcases h2 with h2 | ⟨rfl, h2⟩
          · exact Or.inl h2
          · exact Or.inr ⟨rfl, ih h1 h2⟩

theorem lexLt_asymm {a b : Bytes} (h : lexLt a b = true) : lexLt b a = false := by
  by_contra hc
  have hba : lexLt b a = true := by
    cases hv : lexLt b a
    · exact absurd hv hc
    · rfl
  have := lexLt_trans h hba
  rw [lexLt_irrefl] at this
  exact Bool.false_ne_true this

theorem eq_of_not_lexLt {a b : Bytes} (h1 : lexLt a b = false) (h2 : lexLt b a = false) :
    a = b := by
  induction a generalizing b with
  | nil =>
    cases b with
    | nil => rfl
    | cons y ys => simp [lexLt] at h1
  | cons x xs ih =>
    cases b with
    | nil => simp [lexLt] at h2
    | cons y ys =>
      simp only [lexLt, Bool.or_eq_false_iff, Bool.and_eq_false_iff,
        decide_eq_false_iff_not] at h1 h2
      obtain ⟨hxy, h1'⟩ := h1
      obtain ⟨hyx, h2'⟩ := h2
      have hxy' : x = y := by omega
      subst hxy'
      rcases h1' with h | h1'
      · exact absurd rfl h
      rcases h2' with h | h2'
      · exact absurd rfl h
      rw [ih h1' h2']

theorem lexLt_append_same (p a b : Bytes) : lexLt (p ++ a) (p ++ b) = lexLt a b := by
  induction p with
  | nil => rfl
  | cons x xs ih => simp [lexLt, ih]

theorem hasPfx_append (p t : Bytes) : hasPfx p (p ++ t) = true := by
  induction p with
  | nil => rfl
  | cons x xs ih => simp [hasPfx, ih]

theorem exists_of_hasPfx {p l : Bytes} (h : hasPfx p l = true) : ∃ t, l = p ++ t := by
  induction p generalizing l with
  | nil => exact ⟨l, rfl⟩
  | cons x xs ih =>
    cases l with
    | nil => simp [hasPfx] at h
    | cons y ys =>
      simp only [hasPfx, Bool.and_eq_true, decide_eq_true_eq] at h
      obtain ⟨rfl, h⟩ := h
      obtain ⟨t, rfl⟩ := ih h
      exact ⟨t, rfl⟩

theorem not_lexLt_of_hasPfx {p x : Bytes} (h : hasPfx p x = true) : lexLt x p = false := by
  obtain ⟨t, rfl⟩ := exists_of_hasPfx h
  have := lexLt_append_same p t []
  simpa [lexLt_nil_right] using this

/-- Rows sharing a given search byte-string as a leading segment form an
interval of the lexicographic order: once the scan, positioned at or past
the search point, meets a row without that leading segment, no later row
can have it. -/
theorem hasPfx_interval {p h x : Bytes} (hge : lexLt h p = false)
    (hnp : hasPfx p h = false) (hlt : lexLt h x = true) : hasPfx p x = false := by
  induction p generalizing h x with
  | nil => simp [hasPfx] at hnp
  | cons c p' ih =>
    cases h with
    | nil => simp [lexLt] at hge
    | cons a h' =>
      cases x with
      | nil => simp [lexLt] at hlt
      | cons b x' =>
        simp only [lexLt, Bool.or_eq_false_iff, Bool.and_eq_false_iff,
          decide_eq_false_iff_not] at hge
        obtain ⟨hac, hge'⟩ := hge
        simp only [hasPfx, Bool.and_eq_false_iff, decide_eq_false_iff_not] at hnp
        simp only [lexLt, Bool.or_eq_true, Bool.and_eq_true, decide_eq_true_eq] at hlt
        simp only [hasPfx, Bool.and_eq_false_iff, decide_eq_false_iff_not]
        rcases hlt with hab | ⟨rfl, hlt'⟩
        · left
          intro hcb
          subst hcb
          omega
        · rcases hnp with hca | hnp'
          · exact Or.inl hca
          · by_cases hcb : c = a
            · subst hcb
              rcases hge' with h | hge'
              · exact absurd rfl h
              · exact Or.inr (ih hge' hnp' hlt')
            · exact Or.inl hcb

/-! ## Key codec

Modelled from the spec: the codec source (`tag_filters.go`, `mergeindex`) is
not part of the provided sample; only `search.go` (which consumes it) is.
The spec fixes: rows are `namespace-byte ++ escaped composite key ++
separator ++ escaped value ++ separator ++ fixed-width big-endian TSIDs`;
escaping guarantees the single-byte separator never occurs inside an
escaped value; a composite tag key is `measurement ++ separator ++ tagKey`.
-/

/-- Modelled from the spec: escape marker byte used inside tag values. -/
def escapeChar : Nat := 0

/-- Modelled from the spec: the single-byte tag separator that must occur
after every escaped key / value inside a row. -/
def tagSeparatorChar : Nat := 1

/-- Modelled from the spec: separator for series-key → TSID rows. -/
def kvSeparatorChar : Nat := 2

/-- Modelled from the spec: byte joining measurement and tag key inside a
composite tag key (escaped away before hitting the sorted substrate). -/
def compositeSepChar : Nat := 3

/-- Modelled from the spec: namespace byte of series-key → TSID rows. -/
def nsPrefixKeyToTSID : Nat := 0

/-- Modelled from the spec: namespace byte of tag → TSID-list rows. -/
def nsPrefixTagToTSIDs : Nat := 1

/-- Modelled from the spec: namespace byte of TSID → series-key rows. -/
def nsPrefixTSIDToKey : Nat := 2

/-- Modelled from the spec: maximum TSID count per row (`MaxTSIDsPerRow`
from `mergeindex`); the row-capacity constant used by the skip-ahead
heuristic. -/
def MaxTSIDsPerRow : Nat := 64

/-- Modelled from the spec: escape one byte of a raw tag value so that the
escaped form never contains `tagSeparatorChar` (nor `kvSeparatorChar`). -/
def escapeByte (b : Nat) : Bytes :=
  if b = escapeChar then [escapeChar, 48]
  else if b = tagSeparatorChar then [escapeChar, 49]
  else if b = kvSeparatorChar then [escapeChar, 50]
  else [b]

/-- Modelled from the spec: escape a raw tag value byte-by-byte. -/
def escapeTagValue (v : Bytes) : Bytes := v.flatMap escapeByte

/-- Modelled from the spec: recover the raw tag value from its escaped
form (total; unknown escape pairs decode to their second byte). -/
def unescapeTagValue : Bytes → Bytes
  | [] => []
  | b :: rest =>
    if b = escapeChar then
      match rest with
      | [] => []
      | c :: rest' =>
        (if c = 48 then escapeChar
         else if c = 49 then tagSeparatorChar
         else if c = 50 then kvSeparatorChar
         else c) :: unescapeTagValue rest'
    else b :: unescapeTagValue rest

/-- Modelled from the spec: `marshalTagValue` appends the escaped value and
a trailing `tagSeparatorChar`. -/
def marshalTagValue (dst v : Bytes) : Bytes := dst ++ escapeTagValue v ++ [tagSeparatorChar]

/-- Modelled from the spec: `marshalTagValueNoTrailingTagSeparator`. -/
def marshalTagValueNoSep (dst v : Bytes) : Bytes := dst ++ escapeTagValue v

/-- Modelled from the spec: composite tag key `measurement ++ sep ++ key`. -/
def marshalCompositeTagKey (name key : Bytes) : Bytes := name ++ [compositeSepChar] ++ key

/-- Modelled from the spec: the measurement-only leading segment of a
composite tag key. -/
def marshalCompositeNamePrefix (name : Bytes) : Bytes := name ++ [compositeSepChar]

theorem escapeTagValue_append (a b : Bytes) :
    escapeTagValue (a ++ b) = escapeTagValue a ++ escapeTagValue b := by
  simp [escapeTagValue]

theorem sep_not_mem_escapeByte (b : Nat) : tagSeparatorChar ∉ escapeByte b := by
  unfold escapeByte
  split
  · simp [escapeChar, tagSeparatorChar]
  · split
    · simp [escapeChar, tagSeparatorChar]
    · split
      · simp [escapeChar, tagSeparatorChar]
      · rename_i h1 h2 h3
        simp only [List.mem_singleton]
        intro h
        exact h2 h.symm

theorem sep_not_mem_escape (v : Bytes) : tagSeparatorChar ∉ escapeTagValue v := by
  intro h
  simp only [escapeTagValue, List.mem_flatMap] at h
  obtain ⟨b, _, hb⟩ := h
  exact sep_not_mem_escapeByte b hb

theorem unescape_cons_plain {b : Nat} (hb : ¬ b = escapeChar) (l : Bytes) :
    unescapeTagValue (b :: l) = b :: unescapeTagValue l := by
  cases l <;> simp [unescapeTagValue, hb]

theorem unescape_escape (v : Bytes) : unescapeTagValue (escapeTagValue v) = v := by
  induction v with
  | nil => rfl
  | cons b rest ih =>
    show unescapeTagValue (escapeByte b ++ escapeTagValue rest) = b :: rest
    by_cases h0 : b = escapeChar
    · subst h0; simp [escapeByte, unescapeTagValue, escapeChar, ih]
    · by_cases h1 : b = tagSeparatorChar
      · subst h1
        simp [escapeByte, unescapeTagValue, escapeChar, tagSeparatorChar, kvSeparatorChar, ih]
      · by_cases h2 : b = kvSeparatorChar
        · subst h2
          simp [escapeByte, unescapeTagValue, escapeChar, tagSeparatorChar, kvSeparatorChar, ih]
        · simp only [escapeByte, if_neg h0, if_neg h1, if_neg h2, List.cons_append,
            List.nil_append]
          rw [unescape_cons_plain h0, ih]

theorem escape_injective {a b : Bytes} (h : escapeTagValue a = escapeTagValue b) : a = b := by
  have := congrArg unescapeTagValue h
  rwa [unescape_escape, unescape_escape] at this

/-- Big-endian byte decoding (used for 8-byte TSIDs and the 2-byte series
key version tag). -/
def beParse (l : Bytes) : Nat := l.foldl (fun a b => a * 256 + b) 0

/-- Big-endian encoding of `n` into `w` bytes. -/
def beBytes (w n : Nat) : Bytes :=
  match w with
  | 0 => []
  | w' + 1 => beBytes w' (n / 256) ++ [n % 256]

/-- Modelled from the spec: the row parser (`tagToTSIDsRowParser`) reads
the remaining row tail as a list of fixed-width 8-byte big-endian TSIDs
(the scans only reach it after checking the tail length is a multiple
of 8). -/
def parseTSIDs : Bytes → List Nat
  | b0 :: b1 :: b2 :: b3 :: b4 :: b5 :: b6 :: b7 :: rest =>
    beParse [b0, b1, b2, b3, b4, b5, b6, b7] :: parseTSIDs rest
  | [] => []
  | l => [beParse l]

/-- Split a row tail at the first `tagSeparatorChar`, returning the bytes
before it and the bytes after it (`bytes.IndexByte` + slicing in the
source); `none` when the separator is absent, the corruption case. -/
def splitSep : Bytes → Option (Bytes × Bytes)
  | [] => none
  | b :: rest =>
    if b = tagSeparatorChar then some ([], rest)
    else (splitSep rest).map (fun vr => (b :: vr.1, vr.2))

theorem splitSep_sepFree {a : Bytes} (hsep : tagSeparatorChar ∉ a) (r : Bytes) :
    splitSep (a ++ tagSeparatorChar :: r) = some (a, r) := by
  induction a with
  | nil => simp [splitSep]
  | cons b bs ih =>
    simp only [List.mem_cons, not_or] at hsep
    rw [List.cons_append, splitSep, if_neg (fun h => hsep.1 h.symm), ih hsep.2]
    rfl

theorem splitSep_escaped (v r : Bytes) :
    splitSep (escapeTagValue v ++ tagSeparatorChar :: r) = some (escapeTagValue v, r) :=
  splitSep_sepFree (sep_not_mem_escape v) r

theorem splitSep_none_iff (l : Bytes) : splitSep l = none ↔ tagSeparatorChar ∉ l := by
  induction l with
  | nil => simp [splitSep]
  | cons b rest ih =>
    simp only [splitSep, List.mem_cons, not_or]
    by_cases hb : b = tagSeparatorChar
    · simp [hb]
    · rw [if_neg hb]
      constructor
      · intro h
        refine ⟨fun he => hb he.symm, ih.mp ?_⟩
        cases hsp : splitSep rest with
        | none => rfl
        | some vr => rw [hsp] at h; simp at h
      · intro h
        rw [ih.mpr h.2]
        rfl

/-! ## Errors

Go errors are modelled as a closed sum; `logger.Panicf` and nil-pointer /
type-assertion panics are modelled as distinguished error values. -/

inductive Err where
  /-- `ErrFieldExpr`: the deferred-resolution sentinel of `search.go`. -/
  | fieldExpr
  /-- `logger.Panicf("BUG: ...")` guards. -/
  | panicBug
  /-- a Go runtime panic (nil-interface method call, failed type assert). -/
  | goPanic
  /-- `errno.ConvertToBinaryExprFailed` from `expr2BinaryExpr`. -/
  | convertFailed
  /-- `"invalid tag->tsids line ...: cannot find tagSeparatorChar"`. -/
  | noSeparator (item : Bytes)
  /-- TSID tail not a whole number of 8-byte entries (`mp.InitOnlyTail`). -/
  | badTSIDRow (item : Bytes)
  /-- `"data corruption: the last char in k=... must be ..."`. -/
  | cannotIncrement (k : Bytes)
  /-- malformed series key (`influx.MeasurementName`). -/
  | keyParse (key : Bytes)
deriving DecidableEq

/-! ## TagFilter -/

/-- Compiled single-tag predicate (`tagFilter` of `tag_filters.go`; the
field called `prefix` in the source is `pfx` here). -/
structure TagFilter where
  name : Bytes
  key : Bytes
  value : Bytes
  isNegative : Bool
  isRegexp : Bool
  pfx : Bytes
  orSuffixes : List Bytes
deriving DecidableEq

/-- Modelled from the spec: `tagFilter.Init` (source not in the sample)
builds the search byte-string from the escaped composite tag key; a
non-regex filter carries its single literal value (escaped) in
`orSuffixes`; for a regex filter the anchored alternation's literal
alternatives are extracted (escaped) into `orSuffixes` — in this model
every regex is a finite literal alternation (`regexMatchesRaw` below), so
the extraction always succeeds. -/
def tagFilterInit (name key value : Bytes) (isNegative isRegexp : Bool) : TagFilter :=
  { name := name, key := key, value := value
    isNegative := isNegative, isRegexp := isRegexp
    pfx := marshalTagValue [nsPrefixTagToTSIDs] (marshalCompositeTagKey name key)
    orSuffixes := (if isRegexp then value.splitOn 124 else [value]).map escapeTagValue }

/-- Modelled from the spec: regexes are approximated by anchored literal
alternation (split on the `|` byte), the only regex shape the spec's
fast-path discussion needs. -/
def regexMatchesRaw (pat raw : Bytes) : Bool := (pat.splitOn 124).contains raw

/-- Modelled from the spec: whether the filter accepts a raw tag value;
inverted when `isNegative`. -/
def matchRaw (tf : TagFilter) (raw : Bytes) : Bool :=
  (if tf.isRegexp then regexMatchesRaw tf.value raw else raw == tf.value) != tf.isNegative

/-- Modelled from the spec: `tf.matchSuffix` re-derives the raw tag value
from the suffix bytes (escaped value plus trailing separator) and applies
the matcher. -/
def matchSuffix (tf : TagFilter) (suffix : Bytes) : Bool :=
  matchRaw tf (unescapeTagValue suffix.dropLast)

/-! ## Substrate scans (`search.go`) -/

/-- `ts.Seek(p)`: position the cursor on the first row not below `p`. -/
def seek (tbl : List Bytes) (p : Bytes) : List Bytes :=
  tbl.dropWhile (fun it => lexLt it p)

/-- `kb.B[len(kb.B)-1]++` after the corruption guard. -/
def incLast (b : Bytes) : Bytes := b.dropLast ++ [b.getLast?.getD 0 + 1]

/-- Scan loop of `updateTSIDsByOrSuffix`: collect TSIDs of every row that
still carries the full or-suffix row key `p`. -/
def orSuffixLoop (p : Bytes) : List Bytes → Finset Nat → Except Err (Finset Nat)
  | [], acc => .ok acc
  | item :: rest, acc =>
    if hasPfx p item then
      let tail := item.drop p.length
      if tail.length % 8 = 0 then
        orSuffixLoop p rest (acc ∪ (parseTSIDs tail).toFinset)
      else .error (.badTSIDRow item)
    else .ok acc

/-- `updateTSIDsByOrSuffix`. -/
def updateTSIDsByOrSuffix (p : Bytes) (tbl : List Bytes) (tsids : Finset Nat) :
    Except Err (Finset Nat) :=
  orSuffixLoop p (seek tbl p) tsids

/-- Iteration over `tf.orSuffixes` in `updateTSIDsByOrSuffixesOfTagFilter`:
for each literal suffix seek the exact row key `pfx ++ suffix ++ sep`. -/
def orSuffixesLoop (tf : TagFilter) (tbl : List Bytes) :
    List Bytes → Finset Nat → Except Err (Finset Nat)
  | [], acc => .ok acc
  | s :: ss, acc =>
    match updateTSIDsByOrSuffix (tf.pfx ++ s ++ [tagSeparatorChar]) tbl acc with
    | .error e => .error e
    | .ok acc' => orSuffixesLoop tf tbl ss acc'

/-- `updateTSIDsByOrSuffixesOfTagFilter` (fast path). -/
def updateTSIDsByOrSuffixesOfTagFilter (tf : TagFilter) (tbl : List Bytes)
    (tsids : Finset Nat) : Except Err (Finset Nat) :=
  if tf.isNegative then .error .panicBug
  else orSuffixesLoop tf tbl tf.orSuffixes tsids

/-- `filter.Has(tsid)` with the optional pushed-down candidate set. -/
def filterHas : Option (Finset Nat) → Nat → Bool
  | none, _ => true
  | some f, t => decide (t ∈ f)

/-- `mp.HasCommonTSIDs(filter)`. -/
def hasCommonTSIDs (ts : List Nat) (f : Finset Nat) : Bool :=
  ts.any (fun t => decide (t ∈ f))

/-- Collect a row's TSIDs through the optional filter (`f(tsid)` callback
feeding `tsids.Add` in the source). -/
def addTSIDs (flt : Option (Finset Nat)) (ts : List Nat) (acc : Finset Nat) : Finset Nat :=
  acc ∪ (ts.filter (fun t => filterHas flt t)).toFinset

/-- Scan loop of `getTSIDsForTagFilterSlow` (slow path): walk rows under
the filter's search byte-string, reuse the previous verdict for a repeated
suffix, evaluate the matcher otherwise, and on a non-matching full row skip
ahead by incrementing the final separator byte and re-seeking. -/
def slowScanLoop (tf : TagFilter) (flt : Option (Finset Nat)) (rest : List Bytes)
    (prevMatch : Bool) (prevSuffix : Bytes) (acc : Finset Nat) : Except Err (Finset Nat) :=
  match rest with
  | [] => .ok acc
  | item :: rest' =>
    if hasPfx tf.pfx item then
      match splitSep (item.drop tf.pfx.length) with
      | none => .error (.noSeparator item)
      | some (v, tsidBytes) =>
        let suffix := v ++ [tagSeparatorChar]
        if tsidBytes.length % 8 = 0 then
          let tsids := parseTSIDs tsidBytes
          if prevMatch && suffix == prevSuffix then
            slowScanLoop tf flt rest' prevMatch prevSuffix (addTSIDs flt tsids acc)
          else if (match flt with
                   | some f => !hasCommonTSIDs tsids f
                   | none => false) then
            slowScanLoop tf flt rest' prevMatch prevSuffix acc
          else if matchSuffix tf suffix then
            slowScanLoop tf flt rest' true suffix (addTSIDs flt tsids acc)
          else if tsids.length < MaxTSIDsPerRow / 2 then
            slowScanLoop tf flt rest' false prevSuffix acc
          else
            let kb := item.take (item.length - tsidBytes.length)
            if kb = [] ∨ kb.getLast?.getD 0 ≠ tagSeparatorChar ∨ 255 ≤ tagSeparatorChar then
              .error (.cannotIncrement kb)
            else
              slowScanLoop tf flt (seek rest' (incLast kb)) false prevSuffix acc
        else .error (.badTSIDRow item)
    else .ok acc
  termination_by rest.length
  decreasing_by
    all_goals simp only [List.length_cons]
    · omega
    · omega
    · omega
    · omega
    · simp only [seek]
      have := (List.dropWhile_sublist (l := rest')
        (fun it => lexLt it (incLast (List.take (item.length - tsidBytes.length) item)))).length_le
      omega

/-- `getTSIDsForTagFilterSlow` with the result set accumulated directly
(the source threads an `f(tsid)` callback adding into a `uint64set.Set`). -/
def getTSIDsForTagFilterSlow (tf : TagFilter) (flt : Option (Finset Nat))
    (tbl : List Bytes) : Except Err (Finset Nat) :=
  if tf.orSuffixes = [] then
    slowScanLoop tf flt (seek tbl tf.pfx) false [] ∅
  else .error .panicBug

/-- `searchTSIDsByTagFilter`: dispatch between fast and slow path. -/
def searchTSIDsByTagFilter (tf : TagFilter) (tbl : List Bytes) : Except Err (Finset Nat) :=
  if tf.isNegative then .error .panicBug
  else if tf.orSuffixes = [] then getTSIDsForTagFilterSlow tf none tbl
  else updateTSIDsByOrSuffixesOfTagFilter tf tbl ∅

/-- `dropSeps n t`: skip past `n` tag separators of a row tail (the
`for i := 0; i < tagSeps; i++` loop of `updateTSIDsForPrefix`); `none` is
the missing-separator corruption case. -/
def dropSeps : Nat → Bytes → Option Bytes
  | 0, t => some t
  | n + 1, t =>
    match splitSep t with
    | none => none
    | some vr => dropSeps n vr.2

/-- Scan loop of `updateTSIDsForPrefix`. -/
def updateTSIDsForPrefixLoop (p : Bytes) (tagSeps : Nat) :
    List Bytes → Finset Nat → Except Err (Finset Nat)
  | [], acc => .ok acc
  | item :: rest, acc =>
    if hasPfx p item then
      match dropSeps tagSeps (item.drop p.length) with
      | none => .error (.noSeparator item)
      | some tail =>
        if tail.length % 8 = 0 then
          updateTSIDsForPrefixLoop p tagSeps rest (acc ∪ (parseTSIDs tail).toFinset)
        else .error (.badTSIDRow item)
    else .ok acc

/-- `updateTSIDsForPrefix`. -/
def updateTSIDsForPrefix (p : Bytes) (tsids : Finset Nat) (tagSeps : Nat)
    (tbl : List Bytes) : Except Err (Finset Nat) :=
  updateTSIDsForPrefixLoop p tagSeps (seek tbl p) tsids

/-- The measurement-wide search byte-string of `getTSIDsByMeasurementName`
(and of `containsMeasurement`): namespace byte plus escaped composite name
with the trailing separator stripped. -/
def measurementPfx (name : Bytes) : Bytes :=
  [nsPrefixTagToTSIDs] ++ escapeTagValue (marshalCompositeNamePrefix name)

/-- `getTSIDsByMeasurementName`: all series of a measurement, via a
2-separator skip-depth scan. -/
def getTSIDsByMeasurementName (name : Bytes) (tbl : List Bytes) : Except Err (Finset Nat) :=
  updateTSIDsForPrefix (measurementPfx name) ∅ 2 tbl

/-- `getTSIDsByTagFilter`: negation is resolved here, one level above the
scan routines, as all-series minus the positive filter's series. -/
def getTSIDsByTagFilter (tf : TagFilter) (tbl : List Bytes) : Except Err (Finset Nat) :=
  if !tf.isNegative then searchTSIDsByTagFilter tf tbl
  else
    match getTSIDsByMeasurementName tf.name tbl with
    | .error e => .error e
    | .ok tsids =>
      match searchTSIDsByTagFilter { tf with isNegative := false } tbl with
      | .error e => .error e
      | .ok m => .ok (tsids \ m)

/-- `TimeRange`. -/
structure TimeRange where
  Min : Int
  Max : Int
deriving DecidableEq

/-- `searchTSIDsByTimeRange` ignores the time range entirely. -/
def searchTSIDsByTimeRange (name : Bytes) (_tr : TimeRange) (tbl : List Bytes) :
    Except Err (Finset Nat) :=
  getTSIDsByMeasurementName name tbl

/-- `searchTSIDsByTagFilterAndDateRange` ignores the date range. -/
def searchTSIDsByTagFilterAndDateRange (tf : TagFilter) (_tr : TimeRange)
    (tbl : List Bytes) : Except Err (Finset Nat) :=
  getTSIDsByTagFilter tf tbl

/-- `containsMeasurement`: single prefixed seek existence probe
(`FirstItemWithPrefix`). -/
def containsMeasurement (name : Bytes) (tbl : List Bytes) : Bool :=
  match (seek tbl (measurementPfx name)).head? with
  | some it => hasPfx (measurementPfx name) it
  | none => false

/-! ## Predicate AST and series-ID iterators -/

/-- Binary operators of `influxql` reaching this core. -/
inductive Op where
  | and | or | eq | neq | eqregex | neqregex | otherOp
deriving DecidableEq

/-- The `influxql.Expr` node shapes `search.go` inspects; a `varRef`
carries whether its `Type` is `influxql.Tag`. -/
inductive Expr where
  | binary (op : Op) (lhs rhs : Expr)
  | paren (e : Expr)
  | boolLit (b : Bool)
  | varRef (nm : Bytes) (isTag : Bool)
  | stringLit (s : Bytes)
  | regexLit (s : Bytes)
  | unknownExpr
deriving DecidableEq

def Expr.isBinaryExpr : Expr → Bool
  | .binary _ _ _ => true
  | _ => false

def Expr.asVarRef : Expr → Option (Bytes × Bool)
  | .varRef nm t => some (nm, t)
  | _ => none

/-- The paren-unwrapping loop of `expr2BinaryExpr`. -/
def stripParens : Expr → Expr
  | .paren e => stripParens e
  | e => e

/-- `expr2BinaryExpr`. -/
def expr2BinaryExpr (e : Expr) : Except Err Expr :=
  match stripParens e with
  | .binary op l r => .ok (.binary op l r)
  | _ => .error .convertFailed

/-- Modelled from the spec: the polymorphic lazy `index.SeriesIDIterator`
(`open_src/influx/index`, not in the sample): set-backed, deferred-filter
wrappers, and intersect/union combinators. -/
inductive SIDIter where
  | set (s : Finset Nat)
  | exprItr (inner : SIDIter) (e : Expr)
  | exprSeries (ids : Finset Nat) (e : Expr)
  | intersectItr (l r : SIDIter)
  | unionItr (l r : SIDIter)
deriving DecidableEq

/-- Modelled from the spec: `itr.Ids()`, the sorted ID set underlying an
iterator. -/
def SIDIter.Ids : SIDIter → Finset Nat
  | .set s => s
  | .exprItr inner _ => inner.Ids
  | .exprSeries ids _ => ids
  | .intersectItr l r => l.Ids ∩ r.Ids
  | .unionItr l r => l.Ids ∪ r.Ids

/-- Modelled from the spec: `index.IntersectSeriesIDIterators` (nil if
either side is nil). -/
def intersectIters : Option SIDIter → Option SIDIter → Option SIDIter
  | some l, some r => some (.intersectItr l r)
  | _, _ => none

/-- Modelled from the spec: `index.UnionSeriesIDIterators` (the non-nil
side if the other is nil). -/
def unionIters : Option SIDIter → Option SIDIter → Option SIDIter
  | some l, some r => some (.unionItr l r)
  | some l, none => some l
  | none, r => r

/-- `is.genSeriesIDIterator(ids, n)`: an expression iterator over a clone
of `ids` (a nil set clones to an empty one). -/
def genSeriesIDIterator (ids : Option (Finset Nat)) (n : Expr) : SIDIter :=
  .exprItr (.set (ids.getD ∅)) n

/-- The `(itr, err)` pair of the iterator-building recursion, together
with the threaded `**uint64set.Set` memo of the measurement's all-series
set (`tsids`). -/
structure ItrRes where
  itr : Option SIDIter
  err : Option Err
  st : Option (Finset Nat)
deriving DecidableEq

/-- `seriesByBinaryExprVarRef`: tag = tag comparison; scan both tags'
universes and intersect (equality) or subtract (inequality). -/
def seriesByBinaryExprVarRef (name key val : Bytes) (equal : Bool)
    (tbl : List Bytes) : Option SIDIter × Option Err :=
  let tf1 := tagFilterInit name key [46, 42] false true
  let tf2 := tagFilterInit name val [46, 42] false true
  match searchTSIDsByTagFilterAndDateRange tf1 ⟨0, 0⟩ tbl with
  | .error e => (none, some e)
  | .ok set1 =>
    match searchTSIDsByTagFilterAndDateRange tf2 ⟨0, 0⟩ tbl with
    | .error e => (none, some e)
    | .ok set2 =>
      if equal then (some (.set (set1 ∩ set2)), none)
      else (some (.set (set1 \ set2)), none)

/-- `seriesByBinaryExpr` on the binary node `op lhs rhs`. -/
def seriesByBinaryExpr (name : Bytes) (op : Op) (lhs rhs : Expr) (tr : TimeRange)
    (tsids : Option (Finset Nat)) (singleSeries : Bool) (tbl : List Bytes) : ItrRes :=
  let n : Expr := .binary op lhs rhs
  let searchAll : ItrRes :=
    match tsids with
    | none =>
      match searchTSIDsByTimeRange name tr tbl with
      | .error e => ⟨none, some e, none⟩
      | .ok s => ⟨some (genSeriesIDIterator (some s) n), none, some s⟩
    | some s => ⟨some (genSeriesIDIterator (some s) n), none, some s⟩
  if lhs.isBinaryExpr then searchAll
  else if rhs.isBinaryExpr then searchAll
  else
    let kv : Option ((Bytes × Bool) × Expr) :=
      match lhs.asVarRef with
      | some k => some (k, rhs)
      | none =>
        match rhs.asVarRef with
        | some k => some (k, lhs)
        | none => none
    match kv with
    | none => searchAll
    | some ((knm, ktag), value) =>
      if !ktag then ⟨none, some .fieldExpr, tsids⟩
      else if singleSeries then ⟨some (.set (tsids.getD ∅)), none, tsids⟩
      else
        match value with
        | .stringLit s =>
          match searchTSIDsByTagFilterAndDateRange
              (tagFilterInit name knm s (!(op == .eq)) false) tr tbl with
          | .error e => ⟨none, some e, tsids⟩
          | .ok ids => ⟨some (.set ids), none, tsids⟩
        | .regexLit s =>
          match searchTSIDsByTagFilterAndDateRange
              (tagFilterInit name knm s (!(op == .eqregex)) true) tr tbl with
          | .error e => ⟨none, some e, tsids⟩
          | .ok ids => ⟨some (.set ids), none, tsids⟩
        | .varRef vnm _ =>
          let ie := seriesByBinaryExprVarRef name knm vnm (op == .eq) tbl
          ⟨ie.1, ie.2, tsids⟩
        | _ => searchAll

/-- The `newSeriesIDSetIterator` closure of `seriesByExprIterator`:
resolve (and memoize) the by-time-range all-series set, iterate a clone. -/
def newSetItr (name : Bytes) (tr : TimeRange) (tsids : Option (Finset Nat))
    (tbl : List Bytes) : ItrRes :=
  match tsids with
  | none =>
    match searchTSIDsByTimeRange name tr tbl with
    | .error e => ⟨none, some e, none⟩
    | .ok s => ⟨some (.set s), none, some s⟩
  | some s => ⟨some (.set s), none, some s⟩

/-- The per-side conversion closure `f` of `seriesByAllIdsIterator`: a side
that reported `ErrFieldExpr` is rebuilt as a deferred-expression iterator
over the all-series set. -/
def applyFieldExprConv (st : Option (Finset Nat)) (e : Expr) (itr : Option SIDIter)
    (err : Option Err) : Except Err (Option SIDIter) :=
  if err = some .fieldExpr then
    match expr2BinaryExpr e with
    | .error e2 => .error e2
    | .ok bin => .ok (some (genSeriesIDIterator st bin))
  else .ok itr

/-- `seriesByAllIdsIterator`. -/
def seriesByAllIdsIterator (name : Bytes) (tr : TimeRange)
    (lexpr : Expr) (litr : Option SIDIter) (lerr : Option Err)
    (rexpr : Expr) (ritr : Option SIDIter) (rerr : Option Err)
    (tsids : Option (Finset Nat)) (tbl : List Bytes) :
    Option SIDIter × Option SIDIter × Option Err × Option (Finset Nat) :=
  let stE : Except Err (Option (Finset Nat)) :=
    match tsids with
    | none => (searchTSIDsByTimeRange name tr tbl).map some
    | some s => .ok (some s)
  match stE with
  | .error e => (none, none, some e, none)
  | .ok st =>
    match applyFieldExprConv st lexpr litr lerr with
    | .error e => (none, none, some e, st)
    | .ok litr2 =>
      match applyFieldExprConv st rexpr ritr rerr with
      | .error e => (none, none, some e, st)
      | .ok ritr2 => (litr2, ritr2, none, st)

/-- The `AND` combination step of `seriesByExprIterator` (everything after
both children returned).  In the source the `singleSeries` special
assignment to `litr`/`ritr` is immediately overwritten by the
`NewSeriesIDExprIteratorWithSeries` assignment, so it is dropped here.
Calling `.Ids()` on a nil child iterator is a Go nil-interface panic. -/
def andCombine (name : Bytes) (lhs rhs : Expr) (tr : TimeRange)
    (l r : ItrRes) (tbl : List Bytes) : ItrRes :=
  if l.err = some .fieldExpr ∧ ¬ r.err = some .fieldExpr then
    match expr2BinaryExpr lhs with
    | .error e => ⟨none, some e, r.st⟩
    | .ok lbin =>
      match r.itr with
      | none => ⟨none, some .goPanic, r.st⟩
      | some ri =>
        ⟨intersectIters (some (.exprSeries ri.Ids lbin)) r.itr, none, r.st⟩
  else if ¬ l.err = some .fieldExpr ∧ r.err = some .fieldExpr then
    match expr2BinaryExpr rhs with
    | .error e => ⟨none, some e, r.st⟩
    | .ok rbin =>
      match l.itr with
      | none => ⟨none, some .goPanic, r.st⟩
      | some li =>
        ⟨intersectIters l.itr (some (.exprSeries li.Ids rbin)), none, r.st⟩
  else if l.err = some .fieldExpr ∧ r.err = some .fieldExpr then
    match seriesByAllIdsIterator name tr lhs l.itr l.err rhs r.itr r.err r.st tbl with
    | (_, _, some e, st2) => ⟨none, some e, st2⟩
    | (litr2, ritr2, none, st2) => ⟨intersectIters litr2 ritr2, none, st2⟩
  else ⟨intersectIters l.itr r.itr, none, r.st⟩

/-- The `OR` combination step of `seriesByExprIterator`. -/
def orCombine (name : Bytes) (lhs rhs : Expr) (tr : TimeRange)
    (l r : ItrRes) (tbl : List Bytes) : ItrRes :=
  if l.err = some .fieldExpr ∨ r.err = some .fieldExpr then
    match seriesByAllIdsIterator name tr lhs l.itr l.err rhs r.itr r.err r.st tbl with
    | (_, _, some e, st2) => ⟨none, some e, st2⟩
    | (litr2, ritr2, none, st2) => ⟨unionIters litr2 ritr2, none, st2⟩
  else ⟨unionIters l.itr r.itr, none, r.st⟩

/-- `seriesByExprIterator` on a non-nil expression. -/
def seriesByExprIterator (name : Bytes) (expr : Expr) (tr : TimeRange)
    (tsids : Option (Finset Nat)) (singleSeries : Bool) (tbl : List Bytes) : ItrRes :=
  match expr with
  | .binary op lhs rhs =>
    match op with
    | .and =>
      let l := seriesByExprIterator name lhs tr tsids singleSeries tbl
      if ¬ l.err = none ∧ ¬ l.err = some .fieldExpr then ⟨none, l.err, l.st⟩
      else
        let r := seriesByExprIterator name rhs tr l.st singleSeries tbl
        if ¬ r.err = none ∧ ¬ r.err = some .fieldExpr then ⟨none, r.err, r.st⟩
        else andCombine name lhs rhs tr l r tbl
    | .or =>
      let l := seriesByExprIterator name lhs tr tsids singleSeries tbl
      if ¬ l.err = none ∧ ¬ l.err = some .fieldExpr then ⟨none, l.err, l.st⟩
      else
        let r := seriesByExprIterator name rhs tr l.st singleSeries tbl
        if ¬ r.err = none ∧ ¬ r.err = some .fieldExpr then ⟨none, r.err, r.st⟩
        else orCombine name lhs rhs tr l r tbl
    | _ => seriesByBinaryExpr name op lhs rhs tr tsids singleSeries tbl
  | .paren e => seriesByExprIterator name e tr tsids singleSeries tbl
  | .boolLit b => if b then newSetItr name tr tsids tbl else ⟨none, none, tsids⟩
  | _ => ⟨none, none, tsids⟩

/-- `seriesByExprIterator` including the `expr == nil` entry check. -/
def seriesByExprIteratorTop (name : Bytes) (expr : Option Expr) (tr : TimeRange)
    (tsids : Option (Finset Nat)) (singleSeries : Bool) (tbl : List Bytes) : ItrRes :=
  match expr with
  | none => newSetItr name tr tsids tbl
  | some e => seriesByExprIterator name e tr tsids singleSeries tbl

/-- `measurementSeriesByExprIterator`.  The `expr.(*influxql.BinaryExpr)`
type assertion in the `ErrFieldExpr` handler is a Go panic when the
expression is not a bare binary node. -/
def measurementSeriesByExprIterator (name : Bytes) (expr : Option Expr) (tr : TimeRange)
    (singleSeries : Bool) (tsid : Nat) (tbl : List Bytes) : Option SIDIter × Option Err :=
  let tr2 := if tr.Min < 0 then { tr with Min := 0 } else tr
  if !containsMeasurement name tbl then (none, none)
  else
    let tsids0 : Option (Finset Nat) := if singleSeries then some {tsid} else none
    let r := seriesByExprIteratorTop name expr tr2 tsids0 singleSeries tbl
    if r.err = some .fieldExpr then
      let convert : Finset Nat → Option SIDIter × Option Err := fun s =>
        match expr with
        | some (.binary op l rr) =>
          (some (genSeriesIDIterator (some s) (.binary op l rr)), none)
        | _ => (none, some .goPanic)
      match r.st with
      | none =>
        match searchTSIDsByTimeRange name tr2 tbl with
        | .error e => (none, some e)
        | .ok s => convert s
      | some s => convert s
    else (r.itr, r.err)

/-- `searchTSIDsByBinaryExpr` (pure set path). -/
def searchTSIDsByBinaryExpr (name : Bytes) (op : Op) (lhs rhs : Expr) (tr : TimeRange)
    (tbl : List Bytes) : Except Err (Option (Finset Nat)) :=
  if lhs.isBinaryExpr then .ok none
  else if rhs.isBinaryExpr then .ok none
  else
    let kv : Option ((Bytes × Bool) × Expr) :=
      match lhs.asVarRef with
      | some k => some (k, rhs)
      | none =>
        match rhs.asVarRef with
        | some k => some (k, lhs)
        | none => none
    match kv with
    | none => (searchTSIDsByTimeRange name tr tbl).map some
    | some ((knm, ktag), value) =>
      if !ktag then (searchTSIDsByTimeRange name tr tbl).map some
      else
        match value with
        | .stringLit s =>
          (searchTSIDsByTagFilterAndDateRange
            (tagFilterInit name knm s (op == .neq) false) tr tbl).map some
        | .regexLit s =>
          (searchTSIDsByTagFilterAndDateRange
            (tagFilterInit name knm s (op == .neqregex) true) tr tbl).map some
        | .varRef vnm _ =>
          (searchTSIDsByTagFilterAndDateRange
            (tagFilterInit name knm vnm (op == .neq) false) tr tbl).map some
        | _ => (searchTSIDsByTimeRange name tr tbl).map some

/-- `searchTSIDsInternal` on a non-nil expression. -/
def searchTSIDsInternalE (name : Bytes) (expr : Expr) (tr : TimeRange)
    (tbl : List Bytes) : Except Err (Option (Finset Nat)) :=
  match expr with
  | .binary op lhs rhs =>
    match op with
    | .and =>
      match searchTSIDsInternalE name lhs tr tbl with
      | .error e => .error e
      | .ok ltsids =>
        match searchTSIDsInternalE name rhs tr tbl with
        | .error e => .error e
        | .ok rtsids =>
          match ltsids, rtsids with
          | none, _ => .ok rtsids
          | _, none => .ok ltsids
          | some l, some r => .ok (some (l ∩ r))
    | .or =>
      match searchTSIDsInternalE name lhs tr tbl with
      | .error e => .error e
      | .ok ltsids =>
        match searchTSIDsInternalE name rhs tr tbl with
        | .error e => .error e
        | .ok rtsids =>
          match ltsids, rtsids with
          | none, _ => .ok rtsids
          | _, none => .ok ltsids
          | some l, some r => .ok (some (l ∪ r))
    | _ => searchTSIDsByBinaryExpr name op lhs rhs tr tbl
  | .paren e => searchTSIDsInternalE name e tr tbl
  | .boolLit b =>
    if b then (searchTSIDsByTimeRange name tr tbl).map some else .ok none
  | _ => .ok none

/-- `searchTSIDsInternal` including the `expr == nil` entry check. -/
def searchTSIDsInternal (name : Bytes) (expr : Option Expr) (tr : TimeRange)
    (tbl : List Bytes) : Except Err (Option (Finset Nat)) :=
  match expr with
  | none => (searchTSIDsByTimeRange name tr tbl).map some
  | some e => searchTSIDsInternalE name e tr tbl

/-- `searchTSIDs`: clamp the time range, probe the measurement, resolve the
predicate, subtract tombstones and emit the ascending ID list
(`AppendTo`); a nil internal set yields a nil slice. -/
def searchTSIDs (name : Bytes) (expr : Option Expr) (tr : TimeRange)
    (tbl : List Bytes) (deleted : Finset Nat) : Except Err (List Nat) :=
  let tr2 := if tr.Min < 0 then { tr with Min := 0 } else tr
  if !containsMeasurement name tbl then .ok []
  else
    match searchTSIDsInternal name expr tr2 tbl with
    | .error e => .error e
    | .ok none => .ok []
    | .ok (some s) => .ok ((s \ deleted).sort (· ≤ ·))

/-! ## Series-key enumeration (`getAllSeriesKeys`) -/

/-- `encoding.UnmarshalUint64` reads the first 8 bytes big-endian; slicing
fewer than 8 bytes is a Go panic. -/
def unmarshalUint64 (l : Bytes) : Except Err Nat :=
  if 8 ≤ l.length then .ok (beParse (l.take 8)) else .error .goPanic

/-- Modelled from the spec: `influx.MeasurementName` — the series key
starts with a 2-byte big-endian measurement-name length followed by the
name; its trailing 2 bytes are the version tag. -/
def measurementNameOf (key : Bytes) : Except Err Bytes :=
  if 2 ≤ key.length then
    if 2 + beParse (key.take 2) ≤ key.length then
      .ok ((key.drop 2).take (beParse (key.take 2)))
    else .error (.keyParse key)
  else .error (.keyParse key)

/-- The trailing 2-byte version tag (`encoding.UnmarshalUint16` of
`key[len(key)-2:]`). -/
def keyVersionOf (key : Bytes) : Nat := beParse (key.drop (key.length - 2))

/-- Scan loop of `getAllSeriesKeys`: under the TSID→key namespace, skip
tombstoned TSIDs and keys whose version tag is stale, keep the rest. -/
def getAllSeriesKeysLoop (deleted : Finset Nat) (getVersion : Bytes → Option Nat) :
    List Bytes → Except Err (List Bytes)
  | [] => .ok []
  | item :: rest =>
    if hasPfx [nsPrefixTSIDToKey] item then
      let tail := item.drop 1
      match unmarshalUint64 tail with
      | .error e => .error e
      | .ok tsid =>
        if tsid ∈ deleted then getAllSeriesKeysLoop deleted getVersion rest
        else
          let key := tail.drop 8
          match measurementNameOf key with
          | .error e => .error e
          | .ok mn =>
            let keep :=
              match getVersion mn with
              | some v => keyVersionOf key == v
              | none => true
            if keep then (getAllSeriesKeysLoop deleted getVersion rest).map (key :: ·)
            else getAllSeriesKeysLoop deleted getVersion rest
    else .ok []

/-- `getAllSeriesKeys`, with the index builder's tombstone set and
measurement-version lookup as explicit read-only inputs. -/
def getAllSeriesKeys (tbl : List Bytes) (deleted : Finset Nat)
    (getVersion : Bytes → Option Nat) : Except Err (List Bytes) :=
  getAllSeriesKeysLoop deleted getVersion (seek tbl [nsPrefixTSIDToKey])

/-! ## `TagSetInfo` and `GroupSeries` (grouping) -/

/-- One decoded tag. -/
structure PointTag where
  tagKey : Bytes
  tagValue : Bytes
deriving DecidableEq

/-- `TagSetInfo`: four parallel arrays where index `i` across `IDs`,
`Filters`, `SeriesKeys`, `TagsVec` denotes one logical series, plus the
group-by key and the atomic reference count. -/
structure TagSetInfo where
  ref : Int
  IDs : List Nat
  Filters : List Expr
  SeriesKeys : List Bytes
  TagsVec : List (List PointTag)
  key : Bytes
deriving DecidableEq

/-- `a[i], a[j] = a[j], a[i]` on a list. -/
def swapIdx {α : Type} (l : List α) (i j : Nat) (d : α) : List α :=
  (l.set i (l.getD j d)).set j (l.getD i d)

def TagSetInfo.Len (t : TagSetInfo) : Nat := t.IDs.length

/-- `TagSetInfo.Swap`: exchange positions `i` and `j` of all four parallel
arrays simultaneously. -/
def TagSetInfo.Swap (t : TagSetInfo) (i j : Nat) : TagSetInfo :=
  { t with
    SeriesKeys := swapIdx t.SeriesKeys i j []
    IDs := swapIdx t.IDs i j 0
    TagsVec := swapIdx t.TagsVec i j []
    Filters := swapIdx t.Filters i j .unknownExpr }

/-- `GroupSeries`. -/
abbrev GroupSeries := List TagSetInfo

/-- Insertion step of the descending-by-group-key sort. -/
def insertDesc (t : TagSetInfo) : GroupSeries → GroupSeries
  | [] => [t]
  | u :: us => if lexLt u.key t.key then t :: u :: us else u :: insertDesc t us

/-- `sort.Sort(sort.Reverse(gs))`: Go's unstable comparison sort by the
reversed `Less`, modelled as an insertion sort into descending group-key
order (every correct comparison sort agrees on inputs with pairwise
distinct keys). -/
def sortDesc : GroupSeries → GroupSeries
  | [] => []
  | t :: ts => insertDesc t (sortDesc ts)

/-- The in-place two-pointer swap loop of `GroupSeries.Reverse` over one
group (`for i, j := 0, tt.Len()-1; i < j; ...`) reverses all four parallel
arrays together. -/
def TagSetInfo.revInGroup (t : TagSetInfo) : TagSetInfo :=
  { t with
    IDs := t.IDs.reverse
    Filters := t.Filters.reverse
    SeriesKeys := t.SeriesKeys.reverse
    TagsVec := t.TagsVec.reverse }

/-- `GroupSeries.Reverse`. -/
def GroupSeries.Reverse (gs : GroupSeries) : GroupSeries :=
  (sortDesc gs).map TagSetInfo.revInGroup

instance exceptDecEq {ε α : Type} [DecidableEq ε] [DecidableEq α] :
    DecidableEq (Except ε α) := fun x y =>
  match x, y with
  | .ok a, .ok b =>
    if h : a = b then isTrue (by rw [h]) else isFalse (fun hc => h (Except.ok.inj hc))
  | .error a, .error b =>
    if h : a = b then isTrue (by rw [h]) else isFalse (fun hc => h (Except.error.inj hc))
  | .ok _, .error _ => isFalse (fun hc => Except.noConfusion hc)
  | .error _, .ok _ => isFalse (fun hc => Except.noConfusion hc)

/-! ## Claim theorems -/

/-- C1: resolving a negated literal filter (`k != v`, `isNegative` true)
via `getTSIDsByTagFilter` returns exactly the measurement's all-series set
(`getTSIDsByMeasurementName`) minus the set produced for the positive
filter (`k == v`, `isNegative` false); and the low-level scan routine
`searchTSIDsByTagFilter` rejects (panics on) any filter whose `isNegative`
is still true, so it only ever runs with `isNegative` false. -/
theorem negation_law :
    (∀ (name k v : Bytes) (tbl : List Bytes),
      getTSIDsByTagFilter (tagFilterInit name k v true false) tbl =
        match getTSIDsByMeasurementName name tbl with
        | .error e => .error e
        | .ok all =>
          match searchTSIDsByTagFilter (tagFilterInit name k v false false) tbl with
          | .error e => .error e
          | .ok m => .ok (all \ m)) ∧
    (∀ (tf : TagFilter) (tbl : List Bytes), tf.isNegative = true →
      searchTSIDsByTagFilter tf tbl = .error .panicBug) := by
  constructor
  · intro name k v tbl
    simp [getTSIDsByTagFilter, tagFilterInit]
  · intro tf tbl h
    simp [searchTSIDsByTagFilter, h]

/-- C1 witness: the panic guard fires on a concrete negated filter. -/
theorem negation_law_witness :
    searchTSIDsByTagFilter (tagFilterInit [109] [107] [97] true false) [] =
      .error .panicBug :=
  negation_law.2 (tagFilterInit [109] [107] [97] true false) [] rfl

/-- C10: the time range has no influence on TSID resolution:
`searchTSIDsByTimeRange` returns `getTSIDsByMeasurementName` for every
time range, and `searchTSIDs` yields the same sorted TSID list for any two
time ranges. -/
theorem time_range_noninterference :
    (∀ (name : Bytes) (tr : TimeRange) (tbl : List Bytes),
      searchTSIDsByTimeRange name tr tbl = getTSIDsByMeasurementName name tbl) ∧
    (∀ (name : Bytes) (expr : Option Expr) (tr1 tr2 : TimeRange)
        (tbl : List Bytes) (deleted : Finset Nat),
      searchTSIDs name expr tr1 tbl deleted = searchTSIDs name expr tr2 tbl deleted) := by
  have hbin : ∀ (name : Bytes) (op : Op) (lhs rhs : Expr) (tr1 tr2 : TimeRange)
      (tbl : List Bytes),
      searchTSIDsByBinaryExpr name op lhs rhs tr1 tbl =
        searchTSIDsByBinaryExpr name op lhs rhs tr2 tbl := by
    intro name op lhs rhs tr1 tr2 tbl
    rfl
  have hint : ∀ (name : Bytes) (e : Expr) (tr1 tr2 : TimeRange) (tbl : List Bytes),
      searchTSIDsInternalE name e tr1 tbl = searchTSIDsInternalE name e tr2 tbl := by
    intro name e
    induction e with
    | binary op lhs rhs ihl ihr =>
      intro tr1 tr2 tbl
      cases op with
      | and => simp only [searchTSIDsInternalE, ihl tr1 tr2 tbl, ihr tr1 tr2 tbl]
      | or => simp only [searchTSIDsInternalE, ihl tr1 tr2 tbl, ihr tr1 tr2 tbl]
      | eq => exact hbin name .eq lhs rhs tr1 tr2 tbl
      | neq => exact hbin name .neq lhs rhs tr1 tr2 tbl
      | eqregex => exact hbin name .eqregex lhs rhs tr1 tr2 tbl
      | neqregex => exact hbin name .neqregex lhs rhs tr1 tr2 tbl
      | otherOp => exact hbin name .otherOp lhs rhs tr1 tr2 tbl
    | paren e ih => intro tr1 tr2 tbl; exact ih tr1 tr2 tbl
    | boolLit b => intro tr1 tr2 tbl; rfl
    | varRef nm t => intro tr1 tr2 tbl; rfl
    | stringLit s => intro tr1 tr2 tbl; rfl
    | regexLit s => intro tr1 tr2 tbl; rfl
    | unknownExpr => intro tr1 tr2 tbl; rfl
  constructor
  · intro name tr tbl
    rfl
  · intro name expr tr1 tr2 tbl deleted
    cases expr with
    | none => rfl
    | some e =>
      simp only [searchTSIDs, searchTSIDsInternal]
      rw [hint name e (if tr1.Min < 0 then { tr1 with Min := 0 } else tr1)
        (if tr2.Min < 0 then { tr2 with Min := 0 } else tr2) tbl]

/-- C3 counterexample: with a nested binary comparison on the left-hand
side, `searchTSIDsByBinaryExpr` does NOT return the unfiltered
by-time-range set: it returns a nil set (`nil, nil` in the source, lines
327–333), while the by-time-range set for the measurement is `{7}`. -/
theorem searchTSIDsByBinaryExpr_nested_counterexample :
    searchTSIDsByBinaryExpr [109] .eq
        (.binary .eq (.varRef [107] true) (.stringLit [97])) (.stringLit [97]) ⟨0, 0⟩
        [[1, 109, 3, 107, 1, 97, 1, 0, 0, 0, 0, 0, 0, 0, 7]] = .ok none ∧
    (searchTSIDsByTimeRange [109] ⟨0, 0⟩
        [[1, 109, 3, 107, 1, 97, 1, 0, 0, 0, 0, 0, 0, 0, 7]]).map some =
      .ok (some ({7} : Finset Nat)) ∧
    searchTSIDsByBinaryExpr [109] .eq
        (.binary .eq (.varRef [107] true) (.stringLit [97])) (.stringLit [97]) ⟨0, 0⟩
        [[1, 109, 3, 107, 1, 97, 1, 0, 0, 0, 0, 0, 0, 0, 7]] ≠
      (searchTSIDsByTimeRange [109] ⟨0, 0⟩
        [[1, 109, 3, 107, 1, 97, 1, 0, 0, 0, 0, 0, 0, 0, 7]]).map some := by
  refine ⟨by decide, by decide, by decide⟩

/-- C3 (amended): for every binary comparison in which either side is
itself a nested binary expression, `searchTSIDsByBinaryExpr` returns a nil
TSID set with nil error (it does not resolve the by-time-range set; the
unfiltered-set fallback for nested sides lives in the iterator path
`seriesByBinaryExpr` instead). -/
theorem searchTSIDsByBinaryExpr_nested_returns_nil
    (name : Bytes) (op : Op) (lhs rhs : Expr) (tr : TimeRange) (tbl : List Bytes)
    (h : lhs.isBinaryExpr = true ∨ rhs.isBinaryExpr = true) :
    searchTSIDsByBinaryExpr name op lhs rhs tr tbl = .ok none := by
  rcases h with h | h
  · simp [searchTSIDsByBinaryExpr, h]
  · cases hl : lhs.isBinaryExpr
    · simp [searchTSIDsByBinaryExpr, hl, h]
    · simp [searchTSIDsByBinaryExpr, hl]

/-- C3 witness. -/
theorem searchTSIDsByBinaryExpr_nested_returns_nil_witness :
    searchTSIDsByBinaryExpr [109] .eq
        (.binary .eq (.varRef [107] true) (.stringLit [97])) (.stringLit [97]) ⟨0, 0⟩
        [[1, 109, 3, 107, 1, 97, 1, 0, 0, 0, 0, 0, 0, 0, 7]] = .ok none :=
  searchTSIDsByBinaryExpr_nested_returns_nil [109] .eq
    (.binary .eq (.varRef [107] true) (.stringLit [97])) (.stringLit [97]) ⟨0, 0⟩
    [[1, 109, 3, 107, 1, 97, 1, 0, 0, 0, 0, 0, 0, 0, 7]] (Or.inl rfl)

/-- C5: a row reached during a scan whose tail after the search
byte-string lacks the tag separator (or, for the 2-separator
measurement-wide scan, has fewer separators than required) aborts the scan
with a corruption error naming the offending item — the row is neither
skipped nor folded into a partial result. -/
theorem missing_separator_aborts :
    (∀ (tf : TagFilter) (flt : Option (Finset Nat)) (item : Bytes) (rest : List Bytes)
        (pm : Bool) (ps : Bytes) (acc : Finset Nat),
      hasPfx tf.pfx item = true →
      splitSep (item.drop tf.pfx.length) = none →
      slowScanLoop tf flt (item :: rest) pm ps acc = .error (.noSeparator item)) ∧
    (∀ (p : Bytes) (tagSeps : Nat) (item : Bytes) (rest : List Bytes) (acc : Finset Nat),
      hasPfx p item = true →
      dropSeps tagSeps (item.drop p.length) = none →
      updateTSIDsForPrefixLoop p tagSeps (item :: rest) acc = .error (.noSeparator item)) := by
  constructor
  · intro tf flt item rest pm ps acc h1 h2
    rw [slowScanLoop]
    simp [h1, h2]
  · intro p tagSeps item rest acc h1 h2
    simp [updateTSIDsForPrefixLoop, h1, h2]

/-- C5 witness: a concrete corrupt row aborts both scans. -/
theorem missing_separator_aborts_witness :
    slowScanLoop (tagFilterInit [109] [107] [97] false true) none
        [[1, 109, 3, 107, 1, 5]] false [] ∅ =
      .error (.noSeparator [1, 109, 3, 107, 1, 5]) ∧
    updateTSIDsForPrefixLoop [1, 109, 3] 2 [[1, 109, 3, 107, 1, 5]] ∅ =
      .error (.noSeparator [1, 109, 3, 107, 1, 5]) :=
  ⟨missing_separator_aborts.1 (tagFilterInit [109] [107] [97] false true) none
      [1, 109, 3, 107, 1, 5] [] false [] ∅ (by decide) (by decide),
    missing_separator_aborts.2 [1, 109, 3] 2 [1, 109, 3, 107, 1, 5] [] ∅
      (by decide) (by decide)⟩

theorem splitSep_eq_some {t v r : Bytes} (h : splitSep t = some (v, r)) :
    t = v ++ tagSeparatorChar :: r ∧ tagSeparatorChar ∉ v := by
  induction t generalizing v with
  | nil => simp [splitSep] at h
  | cons b rest ih =>
    simp only [splitSep] at h
    by_cases hb : b = tagSeparatorChar
    · rw [if_pos hb] at h
      obtain ⟨rfl, rfl⟩ : ([] : Bytes) = v ∧ rest = r := by
        simpa using h
      simpa using hb
    · rw [if_neg hb] at h
      cases hsp : splitSep rest with
      | none => rw [hsp] at h; simp at h
      | some vr =>
        rw [hsp] at h
        have h2 : (b :: vr.1, vr.2) = (v, r) := Option.some.inj h
        have hv : b :: vr.1 = v := congrArg Prod.fst h2
        have hr : vr.2 = r := congrArg Prod.snd h2
        obtain ⟨hrest, hmem⟩ := ih (v := vr.1) (by rw [hsp, ← hr])
        subst hv
        constructor
        · simp [hrest, hr]
        · simp only [List.mem_cons, not_or]
          exact ⟨fun he => hb he.symm, hmem⟩

/-- C6: slow-path non-match behavior: when a parsed row's suffix fails the
matcher (and the previous-suffix fast path does not apply), the scan
advances to the next item if the row's TSID count is below
`MaxTSIDsPerRow/2`, and otherwise re-seeks past the current tag value
after incrementing the separator byte of the copied row head — returning a
corruption error exactly when that last byte is absent, is not the tag
separator, or the separator cannot be incremented (`>= 0xff`); moreover,
for a row that parsed successfully that error condition is impossible. -/
theorem slow_path_nonmatch_behavior :
    ∀ (tf : TagFilter) (item : Bytes) (rest : List Bytes) (pm : Bool) (ps : Bytes)
      (acc : Finset Nat) (v tsb : Bytes),
      hasPfx tf.pfx item = true →
      splitSep (item.drop tf.pfx.length) = some (v, tsb) →
      tsb.length % 8 = 0 →
      (pm && (v ++ [tagSeparatorChar]) == ps) = false →
      matchSuffix tf (v ++ [tagSeparatorChar]) = false →
      (slowScanLoop tf none (item :: rest) pm ps acc =
        if (parseTSIDs tsb).length < MaxTSIDsPerRow / 2 then
          slowScanLoop tf none rest false ps acc
        else if item.take (item.length - tsb.length) = [] ∨
            (item.take (item.length - tsb.length)).getLast?.getD 0 ≠ tagSeparatorChar ∨
            255 ≤ tagSeparatorChar then
          .error (.cannotIncrement (item.take (item.length - tsb.length)))
        else
          slowScanLoop tf none
            (seek rest (incLast (item.take (item.length - tsb.length)))) false ps acc) ∧
      ¬ (item.take (item.length - tsb.length) = [] ∨
          (item.take (item.length - tsb.length)).getLast?.getD 0 ≠ tagSeparatorChar ∨
          255 ≤ tagSeparatorChar) := by
  intro tf item rest pm ps acc v tsb hpfx hsp hlen hpm hmatch
  obtain ⟨t, rfl⟩ := exists_of_hasPfx hpfx
  rw [List.drop_left] at hsp
  obtain ⟨rfl, hvmem⟩ := splitSep_eq_some hsp
  have hkb : (tf.pfx ++ (v ++ tagSeparatorChar :: tsb)).take
      ((tf.pfx ++ (v ++ tagSeparatorChar :: tsb)).length - tsb.length) =
      tf.pfx ++ v ++ [tagSeparatorChar] := by
    have hitem : tf.pfx ++ (v ++ tagSeparatorChar :: tsb) =
        (tf.pfx ++ v ++ [tagSeparatorChar]) ++ tsb := by simp
    rw [hitem]
    have hl : ((tf.pfx ++ v ++ [tagSeparatorChar]) ++ tsb).length - tsb.length =
        (tf.pfx ++ v ++ [tagSeparatorChar]).length := by
      simp only [List.length_append, List.length_cons, List.length_nil]
      omega
    rw [hl, List.take_left]
  constructor
  · rw [slowScanLoop]
    simp only [hpfx, if_true, List.drop_left, hsp, hlen, hpm, hmatch, if_false,
      Bool.false_eq_true, reduceIte]
  · rw [hkb]
    push_neg
    refine ⟨by simp, ?_, by decide⟩
    rw [show tf.pfx ++ v ++ [tagSeparatorChar] = (tf.pfx ++ v) ++ [tagSeparatorChar] from rfl,
      List.getLast?_concat]
    rfl

/-- C6 witness: a concrete non-matching row (tag value `a`, filter value
`b`) with a short TSID list merely advances the scan. -/
theorem slow_path_nonmatch_behavior_witness :
    slowScanLoop (tagFilterInit [109] [107] [98] false false) none
        [[1, 109, 3, 107, 1, 97, 1, 0, 0, 0, 0, 0, 0, 0, 7]] false [] ∅ = .ok ∅ ∧
    ¬ (([1, 109, 3, 107, 1, 97, 1] : Bytes) = [] ∨
        ([1, 109, 3, 107, 1, 97, 1] : Bytes).getLast?.getD 0 ≠ tagSeparatorChar ∨
        255 ≤ tagSeparatorChar) := by
  have h := slow_path_nonmatch_behavior (tagFilterInit [109] [107] [98] false false)
    [1, 109, 3, 107, 1, 97, 1, 0, 0, 0, 0, 0, 0, 0, 7] [] false [] ∅ [97]
    [0, 0, 0, 0, 0, 0, 0, 7]
    (by decide) (by decide) (by decide) (by decide) (by decide)
  refine ⟨?_, h.2⟩
  rw [h.1, if_pos (by decide), slowScanLoop]

/-- C8: the `singleSeries` fast path: a tag-comparison leaf evaluated with
`singleSeries` true performs no tag-filter compilation and no substrate
scan (the result is the same for every substrate) and returns an iterator
over a clone of the caller-supplied singleton set; through
`measurementSeriesByExprIterator`, the produced iterator holds exactly the
given TSID. -/
theorem singleSeries_short_circuit :
    (∀ (name : Bytes) (op : Op) (lhs rhs : Expr) (tr : TimeRange) (s : Finset Nat)
        (tbl : List Bytes) (knm : Bytes),
      lhs.isBinaryExpr = false → rhs.isBinaryExpr = false →
      (lhs.asVarRef = some (knm, true) ∨
        (lhs.asVarRef = none ∧ rhs.asVarRef = some (knm, true))) →
      seriesByBinaryExpr name op lhs rhs tr (some s) true tbl =
        ⟨some (.set s), none, some s⟩) ∧
    (∀ (name knm v : Bytes) (tr : TimeRange) (tsid : Nat) (tbl : List Bytes),
      containsMeasurement name tbl = true →
      measurementSeriesByExprIterator name
          (some (.binary .eq (.varRef knm true) (.stringLit v))) tr true tsid tbl =
        (some (.set {tsid}), none)) := by
  constructor
  · intro name op lhs rhs tr s tbl knm hl hr hkv
    rcases hkv with hkv | ⟨hnl, hkv⟩
    · simp [seriesByBinaryExpr, hl, hr, hkv]
    · simp [seriesByBinaryExpr, hl, hr, hnl, hkv]
  · intro name knm v tr tsid tbl hcm
    simp only [measurementSeriesByExprIterator, hcm, Bool.not_true, Bool.false_eq_true,
      if_false, if_true, reduceIte, seriesByExprIteratorTop, seriesByExprIterator]
    simp [seriesByBinaryExpr, Expr.isBinaryExpr, Expr.asVarRef, ItrRes.mk.injEq]

/-- C8 witness: a concrete single-series query returns exactly the given
TSID without scanning. -/
theorem singleSeries_short_circuit_witness :
    measurementSeriesByExprIterator [109]
        (some (.binary .eq (.varRef [107] true) (.stringLit [97]))) ⟨0, 0⟩ true 42
        [[1, 109, 3, 107, 1, 97, 1, 0, 0, 0, 0, 0, 0, 0, 7]] =
      (some (.set {42}), none) :=
  singleSeries_short_circuit.2 [109] [107] [97] ⟨0, 0⟩ 42
    [[1, 109, 3, 107, 1, 97, 1, 0, 0, 0, 0, 0, 0, 0, 7]] (by decide)

theorem swapIdx_length {α : Type} (l : List α) (i j : Nat) (d : α) :
    (swapIdx l i j d).length = l.length := by
  simp [swapIdx]

theorem swapIdx_getD_left {α : Type} (l : List α) (i j : Nat) (d : α)
    (hi : i < l.length) (hj : j < l.length) :
    (swapIdx l i j d).getD i d = l.getD j d := by
  by_cases hij : i = j
  · subst hij
    rw [swapIdx, List.set_set, List.getD_eq_getElem?_getD, List.getElem?_set_self',
      List.getElem?_eq_getElem hi]
    rfl
  · rw [swapIdx, List.getD_eq_getElem?_getD,
      List.getElem?_set_ne (fun he => hij he.symm), List.getElem?_set_self',
      List.getElem?_eq_getElem hi]
    rfl

theorem swapIdx_getD_right {α : Type} (l : List α) (i j : Nat) (d : α)
    (hi : i < l.length) (hj : j < l.length) :
    (swapIdx l i j d).getD j d = l.getD i d := by
  by_cases hij : i = j
  · subst hij
    rw [swapIdx, List.set_set, List.getD_eq_getElem?_getD, List.getElem?_set_self',
      List.getElem?_eq_getElem hi]
    rfl
  · have hjlen : j < (l.set i (l.getD j d)).length := by simpa using hj
    rw [swapIdx, List.getD_eq_getElem?_getD, List.getElem?_set_self',
      List.getElem?_eq_getElem hjlen]
    rfl

theorem swapIdx_getD_other {α : Type} (l : List α) (i j k : Nat) (d : α)
    (hki : ¬ k = i) (hkj : ¬ k = j) :
    (swapIdx l i j d).getD k d = l.getD k d := by
  rw [swapIdx, List.getD_eq_getElem?_getD,
    List.getElem?_set_ne (fun he => hkj he.symm),
    List.getElem?_set_ne (fun he => hki he.symm), List.getD_eq_getElem?_getD]

theorem getD_reverse {α : Type} (l : List α) (i : Nat) (d : α) (h : i < l.length) :
    l.reverse.getD i d = l.getD (l.length - 1 - i) d := by
  rw [List.getD_eq_getElem?_getD, List.getD_eq_getElem?_getD, List.getElem?_reverse h]

theorem insertDesc_all_not_gt {t : TagSetInfo} {l : GroupSeries}
    (h : ∀ u ∈ l, lexLt u.key t.key = false) : insertDesc t l = l ++ [t] := by
  induction l with
  | nil => rfl
  | cons u us ih =>
    have hu : lexLt u.key t.key = false := h u (List.mem_cons_self u us)
    simp only [insertDesc, hu, Bool.false_eq_true, if_false, List.cons_append,
      List.cons.injEq, true_and]
    exact ih (fun w hw => h w (List.mem_cons_of_mem u hw))

theorem sortDesc_of_sorted_asc {gs : GroupSeries}
    (h : gs.Pairwise (fun a b => lexLt a.key b.key = true)) :
    sortDesc gs = gs.reverse := by
  induction gs with
  | nil => rfl
  | cons t ts ih =>
    rw [List.pairwise_cons] at h
    rw [sortDesc, ih h.2, insertDesc_all_not_gt, List.reverse_cons]
    intro u hu
    exact lexLt_asymm (h.1 u (List.mem_reverse.mp hu))

/-- C9 counterexample: on a `GroupSeries` whose groups are not in
ascending key order, `Reverse` (which sorts descending) does not reverse
the group order. -/
theorem groupSeries_reverse_counterexample :
    GroupSeries.Reverse
        [⟨0, [], [], [], [], [2]⟩, ⟨0, [], [], [], [], [1]⟩] ≠
      (([⟨0, [], [], [], [], [2]⟩, ⟨0, [], [], [], [], [1]⟩] : GroupSeries).map
        TagSetInfo.revInGroup).reverse := by
  decide

/-- C9 (amended): `GroupSeries.Reverse` sorts the groups into descending
group-key order — which reverses the group order whenever the groups were
in (strictly) ascending key order — and within each group reverses `IDs`,
`Filters`, `SeriesKeys` and `TagsVec` together, so position `i` holds the
tuple position `Len-1-i` held before; `TagSetInfo.Swap` exchanges all four
parallel arrays at `i` and `j` simultaneously, leaving other positions
unchanged — no operation permutes one array independently. -/
theorem groupSeries_reverse_lockstep :
    (∀ gs : GroupSeries, gs.Pairwise (fun a b => lexLt a.key b.key = true) →
      GroupSeries.Reverse gs = (gs.map TagSetInfo.revInGroup).reverse) ∧
    (∀ (t : TagSetInfo) (i : Nat),
      t.Filters.length = t.IDs.length → t.SeriesKeys.length = t.IDs.length →
      t.TagsVec.length = t.IDs.length → i < t.Len →
      t.revInGroup.IDs.getD i 0 = t.IDs.getD (t.Len - 1 - i) 0 ∧
      t.revInGroup.Filters.getD i .unknownExpr =
        t.Filters.getD (t.Len - 1 - i) .unknownExpr ∧
      t.revInGroup.SeriesKeys.getD i [] = t.SeriesKeys.getD (t.Len - 1 - i) [] ∧
      t.revInGroup.TagsVec.getD i [] = t.TagsVec.getD (t.Len - 1 - i) []) ∧
    (∀ (t : TagSetInfo) (i j : Nat),
      t.Filters.length = t.IDs.length → t.SeriesKeys.length = t.IDs.length →
      t.TagsVec.length = t.IDs.length → i < t.Len → j < t.Len →
      ((t.Swap i j).IDs.getD i 0 = t.IDs.getD j 0 ∧
        (t.Swap i j).IDs.getD j 0 = t.IDs.getD i 0 ∧
        (t.Swap i j).Filters.getD i .unknownExpr = t.Filters.getD j .unknownExpr ∧
        (t.Swap i j).Filters.getD j .unknownExpr = t.Filters.getD i .unknownExpr ∧
        (t.Swap i j).SeriesKeys.getD i [] = t.SeriesKeys.getD j [] ∧
        (t.Swap i j).SeriesKeys.getD j [] = t.SeriesKeys.getD i [] ∧
        (t.Swap i j).TagsVec.getD i [] = t.TagsVec.getD j [] ∧
        (t.Swap i j).TagsVec.getD j [] = t.TagsVec.getD i []) ∧
      (∀ k, ¬ k = i → ¬ k = j →
        (t.Swap i j).IDs.getD k 0 = t.IDs.getD k 0 ∧
        (t.Swap i j).Filters.getD k .unknownExpr = t.Filters.getD k .unknownExpr ∧
        (t.Swap i j).SeriesKeys.getD k [] = t.SeriesKeys.getD k [] ∧
        (t.Swap i j).TagsVec.getD k [] = t.TagsVec.getD k [])) := by
  refine ⟨?_, ?_, ?_⟩
  · intro gs h
    rw [GroupSeries.Reverse, sortDesc_of_sorted_asc h, List.map_reverse]
  · intro t i hf hs htv hi
    refine ⟨getD_reverse _ _ _ hi, ?_, ?_, ?_⟩
    · have h := getD_reverse t.Filters i Expr.unknownExpr (by rw [hf]; exact hi)
      rw [hf] at h
      exact h
    · have h := getD_reverse t.SeriesKeys i ([] : Bytes) (by rw [hs]; exact hi)
      rw [hs] at h
      exact h
    · have h := getD_reverse t.TagsVec i ([] : List PointTag) (by rw [htv]; exact hi)
      rw [htv] at h
      exact h
  · intro t i j hf hs htv hi hj
    constructor
    · exact ⟨swapIdx_getD_left _ _ _ _ hi hj, swapIdx_getD_right _ _ _ _ hi hj,
        swapIdx_getD_left _ _ _ _ (hf ▸ hi) (hf ▸ hj),
        swapIdx_getD_right _ _ _ _ (hf ▸ hi) (hf ▸ hj),
        swapIdx_getD_left _ _ _ _ (hs ▸ hi) (hs ▸ hj),
        swapIdx_getD_right _ _ _ _ (hs ▸ hi) (hs ▸ hj),
        swapIdx_getD_left _ _ _ _ (htv ▸ hi) (htv ▸ hj),
        swapIdx_getD_right _ _ _ _ (htv ▸ hi) (htv ▸ hj)⟩
    · intro k hki hkj
      exact ⟨swapIdx_getD_other _ _ _ _ _ hki hkj, swapIdx_getD_other _ _ _ _ _ hki hkj,
        swapIdx_getD_other _ _ _ _ _ hki hkj, swapIdx_getD_other _ _ _ _ _ hki hkj⟩

/-- C9 witness: a concrete ascending two-group value is reversed in
lockstep, and the within-group reversal moves position 1 to position 0. -/
theorem groupSeries_reverse_lockstep_witness :
    GroupSeries.Reverse
        [⟨0, [10], [.boolLit true], [[5]], [[]], [1]⟩,
          ⟨0, [20, 30], [.boolLit false, .boolLit true], [[6], [7]], [[], []], [2]⟩] =
      (([⟨0, [10], [.boolLit true], [[5]], [[]], [1]⟩,
          ⟨0, [20, 30], [.boolLit false, .boolLit true], [[6], [7]], [[], []], [2]⟩] :
          GroupSeries).map TagSetInfo.revInGroup).reverse ∧
    (⟨0, [20, 30], [.boolLit false, .boolLit true], [[6], [7]], [[], []],
        [2]⟩ : TagSetInfo).revInGroup.IDs.getD 0 0 =
      (⟨0, [20, 30], [.boolLit false, .boolLit true], [[6], [7]], [[], []],
        [2]⟩ : TagSetInfo).IDs.getD 1 0 :=
  ⟨groupSeries_reverse_lockstep.1 _ (by decide),
    (groupSeries_reverse_lockstep.2.1
      (⟨0, [20, 30], [.boolLit false, .boolLit true], [[6], [7]], [[], []], [2]⟩ :
        TagSetInfo) 0 (by decide) (by decide) (by decide) (by decide)).1⟩

theorem expr2BinaryExpr_error_convert {e : Expr} {e2 : Err}
    (h : expr2BinaryExpr e = .error e2) : e2 = .convertFailed := by
  unfold expr2BinaryExpr at h
  cases h2 : stripParens e <;> rw [h2] at h <;> simp_all

theorem updateTSIDsForPrefixLoop_ne_fieldExpr (p : Bytes) (ts : Nat) (rows : List Bytes)
    (acc : Finset Nat) : updateTSIDsForPrefixLoop p ts rows acc ≠ .error .fieldExpr := by
  induction rows generalizing acc with
  | nil => simp [updateTSIDsForPrefixLoop]
  | cons item rest ih =>
    simp only [updateTSIDsForPrefixLoop]
    split
    · split
      · simp
      · split
        · exact ih _
        · simp
    · simp

theorem searchTSIDsByTimeRange_ne_fieldExpr (name : Bytes) (tr : TimeRange)
    (tbl : List Bytes) : searchTSIDsByTimeRange name tr tbl ≠ .error .fieldExpr :=
  updateTSIDsForPrefixLoop_ne_fieldExpr _ _ _ _

theorem applyFieldExprConv_ne_fieldExpr (st : Option (Finset Nat)) (e : Expr)
    (itr : Option SIDIter) (err : Option Err) :
    applyFieldExprConv st e itr err ≠ .error .fieldExpr := by
  unfold applyFieldExprConv
  split
  · cases h : expr2BinaryExpr e with
    | error e2 =>
      have := expr2BinaryExpr_error_convert h
      subst this
      simp
    | ok bin => simp
  · simp

theorem seriesByAllIdsIterator_ne_fieldExpr (name : Bytes) (tr : TimeRange)
    (lexpr : Expr) (litr : Option SIDIter) (lerr : Option Err)
    (rexpr : Expr) (ritr : Option SIDIter) (rerr : Option Err)
    (tsids : Option (Finset Nat)) (tbl : List Bytes) :
    (seriesByAllIdsIterator name tr lexpr litr lerr rexpr ritr rerr tsids tbl).2.2.1 ≠
      some .fieldExpr := by
  have hconv : ∀ (st : Option (Finset Nat)),
      ((match applyFieldExprConv st lexpr litr lerr with
        | Except.error e => ((none : Option SIDIter), (none : Option SIDIter), some e, st)
        | Except.ok litr2 =>
          match applyFieldExprConv st rexpr ritr rerr with
          | Except.error e => (none, none, some e, st)
          | Except.ok ritr2 => (litr2, ritr2, none, st)) :
        Option SIDIter × Option SIDIter × Option Err × Option (Finset Nat)).2.2.1 ≠
        some Err.fieldExpr := by
    intro st
    cases h1 : applyFieldExprConv st lexpr litr lerr with
    | error e1 =>
      intro hc
      have he : e1 = Err.fieldExpr := Option.some.inj hc
      exact applyFieldExprConv_ne_fieldExpr st lexpr litr lerr (by rw [h1, he])
    | ok litr2 =>
      cases h2 : applyFieldExprConv st rexpr ritr rerr with
      | error e2 =>
        intro hc
        have he : e2 = Err.fieldExpr := Option.some.inj hc
        exact applyFieldExprConv_ne_fieldExpr st rexpr ritr rerr (by rw [h2, he])
      | ok ritr2 => simp
  cases tsids with
  | some s =>
    simp only [seriesByAllIdsIterator]
    exact hconv (some s)
  | none =>
    simp only [seriesByAllIdsIterator]
    cases h0 : searchTSIDsByTimeRange name tr tbl with
    | error e0 =>
      simp only [h0, Except.map]
      intro hc
      have he : e0 = Err.fieldExpr := Option.some.inj hc
      exact searchTSIDsByTimeRange_ne_fieldExpr name tr tbl (by rw [h0, he])
    | ok s =>
      simp only [h0, Except.map]
      exact hconv (some s)

theorem andCombine_ne_fieldExpr (name : Bytes) (lhs rhs : Expr) (tr : TimeRange)
    (l r : ItrRes) (tbl : List Bytes) :
    (andCombine name lhs rhs tr l r tbl).err ≠ some .fieldExpr := by
  unfold andCombine
  split
  · cases h1 : expr2BinaryExpr lhs with
    | error e =>
      have := expr2BinaryExpr_error_convert h1
      subst this
      simp
    | ok lbin => cases r.itr <;> simp
  · split
    · cases h1 : expr2BinaryExpr rhs with
      | error e =>
        have := expr2BinaryExpr_error_convert h1
        subst this
        simp
      | ok rbin => cases l.itr <;> simp
    · split
      · have hA := seriesByAllIdsIterator_ne_fieldExpr name tr lhs l.itr l.err
          rhs r.itr r.err r.st tbl
        rcases hval : seriesByAllIdsIterator name tr lhs l.itr l.err
          rhs r.itr r.err r.st tbl with ⟨a, b, c, st2⟩
        rw [hval] at hA
        cases c with
        | some e =>
          intro hc
          exact hA (by simpa using hc)
        | none => simp
      · simp

theorem orCombine_ne_fieldExpr (name : Bytes) (lhs rhs : Expr) (tr : TimeRange)
    (l r : ItrRes) (tbl : List Bytes) :
    (orCombine name lhs rhs tr l r tbl).err ≠ some .fieldExpr := by
  unfold orCombine
  split
  · have hA := seriesByAllIdsIterator_ne_fieldExpr name tr lhs l.itr l.err
      rhs r.itr r.err r.st tbl
    rcases hval : seriesByAllIdsIterator name tr lhs l.itr l.err
      rhs r.itr r.err r.st tbl with ⟨a, b, c, st2⟩
    rw [hval] at hA
    cases c with
    | some e =>
      intro hc
      exact hA (by simpa using hc)
    | none => simp
  · simp

/-- C4: the sentinel `ErrFieldExpr` never escapes the core:
`measurementSeriesByExprIterator` never returns it (its `ErrFieldExpr`
handler converts the deferred expression into an iterator), and the
recursive AND/OR combination inside `seriesByExprIterator` checks both
children's `ErrFieldExpr` explicitly, so an AND/OR node never reports it
upward either. -/
theorem errFieldExpr_never_escapes :
    (∀ (name : Bytes) (expr : Option Expr) (tr : TimeRange) (ss : Bool) (tsid : Nat)
        (tbl : List Bytes),
      (measurementSeriesByExprIterator name expr tr ss tsid tbl).2 ≠ some .fieldExpr) ∧
    (∀ (name : Bytes) (op : Op) (lhs rhs : Expr) (tr : TimeRange)
        (ts : Option (Finset Nat)) (ss : Bool) (tbl : List Bytes),
      op = .and ∨ op = .or →
      (seriesByExprIterator name (.binary op lhs rhs) tr ts ss tbl).err ≠
        some .fieldExpr) := by
  constructor
  · intro name expr tr ss tsid tbl
    unfold measurementSeriesByExprIterator
    generalize (if tr.Min < 0 then { tr with Min := 0 } else tr : TimeRange) = tr2
    split
    · simp
    · dsimp only
      generalize seriesByExprIteratorTop name expr tr2
        (if ss = true then some {tsid} else none) ss tbl = rr
      split
      · cases hst : rr.st with
        | none =>
          cases h0 : searchTSIDsByTimeRange name tr2 tbl with
          | error e0 =>
            simp only [h0]
            intro hc
            have he : e0 = Err.fieldExpr := Option.some.inj hc
            exact searchTSIDsByTimeRange_ne_fieldExpr name tr2 tbl (by rw [h0, he])
          | ok s =>
            simp only [h0]
            cases expr with
            | none => simp
            | some e => cases e <;> simp
        | some s =>
          cases expr with
          | none => simp
          | some e => cases e <;> simp
      · rename_i hne
        simpa using hne
  · intro name op lhs rhs tr ts ss tbl hop
    rcases hop with rfl | rfl
    · rw [seriesByExprIterator]
      split
      · rename_i hg
        simpa using hg.2
      · dsimp only
        split
        · rename_i hg
          simpa using hg.2
        · exact andCombine_ne_fieldExpr name lhs rhs tr _ _ tbl
    · rw [seriesByExprIterator]
      split
      · rename_i hg
        simpa using hg.2
      · dsimp only
        split
        · rename_i hg
          simpa using hg.2
        · exact orCombine_ne_fieldExpr name lhs rhs tr _ _ tbl

/-- C4 witness: a concrete AND query reports no `ErrFieldExpr`. -/
theorem errFieldExpr_never_escapes_witness :
    (seriesByExprIterator [109] (.binary .and (.boolLit true) (.boolLit true)) ⟨0, 0⟩
        none false []).err ≠ some .fieldExpr :=
  errFieldExpr_never_escapes.2 [109] .and (.boolLit true) (.boolLit true) ⟨0, 0⟩
    none false [] (Or.inl rfl)

theorem seek_all_ge {tbl : List Bytes} {p : Bytes}
    (hsort : tbl.Pairwise (fun a b => lexLt a b = true)) :
    ∀ x ∈ seek tbl p, lexLt x p = false := by
  induction tbl with
  | nil => intro x hx; simp [seek] at hx
  | cons a rest ih =>
    rw [List.pairwise_cons] at hsort
    intro x hx
    by_cases ha : lexLt a p = true
    · rw [seek, List.dropWhile_cons, if_pos ha] at hx
      exact ih hsort.2 x hx
    · rw [seek, List.dropWhile_cons, if_neg ha] at hx
      rcases List.mem_cons.mp hx with rfl | hx2
      · cases hv : lexLt x p
        · rfl
        · exact absurd hv ha
      · cases hv : lexLt x p
        · rfl
        · have hax := hsort.1 x hx2
          exact absurd (lexLt_trans hax hv) ha

theorem seek_sublist (tbl : List Bytes) (p : Bytes) : (seek tbl p).Sublist tbl :=
  List.dropWhile_sublist _

theorem filter_seek_eq (p : Bytes) (tbl : List Bytes) :
    tbl.filter (fun it => hasPfx p it) = (seek tbl p).filter (fun it => hasPfx p it) := by
  conv_lhs => rw [← List.takeWhile_append_dropWhile (p := fun it => lexLt it p) (l := tbl)]
  rw [List.filter_append]
  have h1 : (tbl.takeWhile (fun it => lexLt it p)).filter (fun it => hasPfx p it) = [] := by
    rw [List.filter_eq_nil_iff]
    intro x hx
    have hlt := List.mem_takeWhile_imp hx
    intro hpfx
    rw [not_lexLt_of_hasPfx hpfx] at hlt
    exact Bool.false_ne_true hlt
  rw [h1, List.nil_append]
  rfl

/-- The per-row keep decision of `getAllSeriesKeys`: drop tombstoned TSIDs
and keys whose trailing version tag differs from the measurement's current
version when one is recorded. -/
def keptSeriesKey (deleted : Finset Nat) (getVersion : Bytes → Option Nat)
    (it : Bytes) : Option Bytes :=
  if beParse ((it.drop 1).take 8) ∈ deleted then none
  else
    match measurementNameOf ((it.drop 1).drop 8) with
    | .error _ => none
    | .ok mn =>
      match getVersion mn with
      | some v =>
        if keyVersionOf ((it.drop 1).drop 8) == v then some ((it.drop 1).drop 8) else none
      | none => some ((it.drop 1).drop 8)

theorem getAllSeriesKeysLoop_eq (deleted : Finset Nat) (getVersion : Bytes → Option Nat) :
    ∀ (rows : List Bytes),
      rows.Pairwise (fun a b => lexLt a b = true) →
      (∀ it ∈ rows, lexLt it [nsPrefixTSIDToKey] = false) →
      (∀ it ∈ rows, hasPfx [nsPrefixTSIDToKey] it = true →
        11 ≤ it.length ∧ (measurementNameOf ((it.drop 1).drop 8)).isOk = true) →
      getAllSeriesKeysLoop deleted getVersion rows =
        .ok ((rows.filter (fun it => hasPfx [nsPrefixTSIDToKey] it)).filterMap
          (keptSeriesKey deleted getVersion)) := by
  intro rows
  induction rows with
  | nil => intro _ _ _; rfl
  | cons item rest ih =>
    intro hsort hge hwf
    rw [List.pairwise_cons] at hsort
    have hrest := fun it hit => hge it (List.mem_cons_of_mem item hit)
    have hwfrest := fun it hit => hwf it (List.mem_cons_of_mem item hit)
    by_cases hp : hasPfx [nsPrefixTSIDToKey] item = true
    · obtain ⟨hlen, hmn⟩ := hwf item (List.mem_cons_self item rest) hp
      have h8 : 8 ≤ (item.drop 1).length := by
        rw [List.length_drop]
        omega
      have hunm : unmarshalUint64 (item.drop 1) = .ok (beParse ((item.drop 1).take 8)) := by
        rw [unmarshalUint64, if_pos h8]
      rw [getAllSeriesKeysLoop, if_pos hp]
      dsimp only
      rw [hunm]
      dsimp only
      rw [List.filter_cons_of_pos hp, List.filterMap_cons]
      cases hmno : measurementNameOf ((item.drop 1).drop 8) with
      | error e =>
        rw [hmno] at hmn
        simp [Except.isOk, Except.toBool] at hmn
      | ok mn =>
        by_cases hdel : beParse ((item.drop 1).take 8) ∈ deleted
        · rw [if_pos hdel, ih hsort.2 hrest hwfrest]
          rw [show keptSeriesKey deleted getVersion item = none from by
            rw [keptSeriesKey, if_pos hdel]]
        · rw [if_neg hdel]
          dsimp only
          cases hgv : getVersion mn with
          | some v =>
            by_cases hver : (keyVersionOf ((item.drop 1).drop 8) == v) = true
            · rw [if_pos hver, ih hsort.2 hrest hwfrest]
              rw [show keptSeriesKey deleted getVersion item =
                  some ((item.drop 1).drop 8) from by
                rw [keptSeriesKey, if_neg hdel, hmno]
                dsimp only
                rw [hgv]
                show (if (keyVersionOf ((item.drop 1).drop 8) == v) = true
                    then some ((item.drop 1).drop 8) else none) =
                  some ((item.drop 1).drop 8)
                rw [if_pos hver]]
              rfl
            · rw [if_neg hver, ih hsort.2 hrest hwfrest]
              rw [show keptSeriesKey deleted getVersion item = none from by
                rw [keptSeriesKey, if_neg hdel, hmno]
                dsimp only
                rw [hgv]
                show (if (keyVersionOf ((item.drop 1).drop 8) == v) = true
                    then some ((item.drop 1).drop 8) else none) = none
                rw [if_neg hver]]
          | none =>
            rw [if_pos rfl, ih hsort.2 hrest hwfrest]
            rw [show keptSeriesKey deleted getVersion item =
                some ((item.drop 1).drop 8) from by
              rw [keptSeriesKey, if_neg hdel, hmno]
              dsimp only
              rw [hgv]]
            rfl
    · rw [getAllSeriesKeysLoop]
      rw [if_neg hp]
      have hitempfx : hasPfx [nsPrefixTSIDToKey] item = false := by
        cases hv : hasPfx [nsPrefixTSIDToKey] item
        · rfl
        · exact absurd hv hp
      have hrestnp : ∀ x ∈ rest, hasPfx [nsPrefixTSIDToKey] x = false := fun x hx =>
        hasPfx_interval (hge item (List.mem_cons_self item rest)) hitempfx (hsort.1 x hx)
      rw [List.filter_cons_of_neg (by simp [hp])]
      rw [List.filter_eq_nil_iff.mpr (by intro x hx; simp [hrestnp x hx])]
      rfl

/-- C7: stale-key and tombstone exclusion: on a sorted substrate whose
TSID→key rows are well-formed, `getAllSeriesKeys` returns exactly the
stored series keys whose TSID is not in the deleted set and whose trailing
2-byte version tag equals the measurement's current version whenever one
is recorded — in particular a key with an outdated version tag is dropped
once the measurement's version advances. -/
theorem getAllSeriesKeys_exact :
    ∀ (tbl : List Bytes) (deleted : Finset Nat) (getVersion : Bytes → Option Nat),
      tbl.Pairwise (fun a b => lexLt a b = true) →
      (∀ it ∈ tbl, hasPfx [nsPrefixTSIDToKey] it = true →
        11 ≤ it.length ∧ (measurementNameOf ((it.drop 1).drop 8)).isOk = true) →
      getAllSeriesKeys tbl deleted getVersion =
        .ok ((tbl.filter (fun it => hasPfx [nsPrefixTSIDToKey] it)).filterMap
          (keptSeriesKey deleted getVersion)) := by
  intro tbl deleted getVersion hsort hwf
  rw [getAllSeriesKeys]
  rw [getAllSeriesKeysLoop_eq deleted getVersion (seek tbl [nsPrefixTSIDToKey])
    (hsort.sublist (seek_sublist tbl _))
    (seek_all_ge hsort)
    (fun it hit => hwf it ((seek_sublist tbl _).subset hit))]
  rw [← filter_seek_eq]

/-- C7 witness: a key with the current version (3) is kept; the same
substrate with the version advanced to 4, or with the TSID tombstoned,
yields nothing. -/
theorem getAllSeriesKeys_exact_witness :
    getAllSeriesKeys [[2, 0, 0, 0, 0, 0, 0, 0, 5, 0, 1, 110, 0, 3]] ∅
        (fun mn => if mn = [110] then some 3 else none) =
      .ok [[0, 1, 110, 0, 3]] ∧
    getAllSeriesKeys [[2, 0, 0, 0, 0, 0, 0, 0, 5, 0, 1, 110, 0, 3]] ∅
        (fun mn => if mn = [110] then some 4 else none) = .ok [] ∧
    getAllSeriesKeys [[2, 0, 0, 0, 0, 0, 0, 0, 5, 0, 1, 110, 0, 3]] {5}
        (fun mn => if mn = [110] then some 3 else none) = .ok [] := by
  refine ⟨?_, ?_, ?_⟩
  · rw [getAllSeriesKeys_exact [[2, 0, 0, 0, 0, 0, 0, 0, 5, 0, 1, 110, 0, 3]] ∅
      (fun mn => if mn = [110] then some 3 else none) (by decide) (by decide)]
    rfl
  · rw [getAllSeriesKeys_exact [[2, 0, 0, 0, 0, 0, 0, 0, 5, 0, 1, 110, 0, 3]] ∅
      (fun mn => if mn = [110] then some 4 else none) (by decide) (by decide)]
    rfl
  · rw [getAllSeriesKeys_exact [[2, 0, 0, 0, 0, 0, 0, 0, 5, 0, 1, 110, 0, 3]] {5}
      (fun mn => if mn = [110] then some 3 else none) (by decide) (by decide)]
    rfl

/-! ## Fast path / slow path equivalence (C2) -/

/-- TSIDs of all rows carrying the exact or-suffix row key `p`. -/
def pfxRowsTSIDs (p : Bytes) (l : List Bytes) : Finset Nat :=
  (l.filter (fun it => hasPfx p it)).foldr
    (fun it a => (parseTSIDs (it.drop p.length)).toFinset ∪ a) ∅

/-- Whether a row under the filter's search byte-string carries a
matching suffix. -/
def rowMatchesB (tf : TagFilter) (it : Bytes) : Bool :=
  match splitSep (it.drop tf.pfx.length) with
  | some vr => matchSuffix tf (vr.1 ++ [tagSeparatorChar])
  | none => false

/-- The TSID bytes of a row under the filter's search byte-string. -/
def rowTSIDBytes (tf : TagFilter) (it : Bytes) : Bytes :=
  match splitSep (it.drop tf.pfx.length) with
  | some vr => vr.2
  | none => []

/-- TSIDs of all rows under the filter's search byte-string whose suffix
matches the filter. -/
def slowMatchTSIDs (tf : TagFilter) (l : List Bytes) : Finset Nat :=
  (l.filter (fun it => hasPfx tf.pfx it && rowMatchesB tf it)).foldr
    (fun it a => (parseTSIDs (rowTSIDBytes tf it)).toFinset ∪ a) ∅

/-- Well-formedness of one tag→TSIDs row tail: an escaped value, the
separator, then a whole number of 8-byte TSIDs. -/
def rowWFB (p : Bytes) (it : Bytes) : Bool :=
  match splitSep (it.drop p.length) with
  | some vr => escapeTagValue (unescapeTagValue vr.1) == vr.1 && vr.2.length % 8 == 0
  | none => false

theorem rowWFB_exists {p it : Bytes} (hp : hasPfx p it = true)
    (hwf : rowWFB p it = true) :
    ∃ w tsb, it = p ++ (escapeTagValue w ++ tagSeparatorChar :: tsb) ∧
      tsb.length % 8 = 0 := by
  obtain ⟨t, rfl⟩ := exists_of_hasPfx hp
  rw [rowWFB, List.drop_left] at hwf
  cases hsp : splitSep t with
  | none => rw [hsp] at hwf; simp at hwf
  | some vr =>
    rw [hsp] at hwf
    simp only [Bool.and_eq_true, beq_iff_eq] at hwf
    obtain ⟨hesc, hlen⟩ := hwf
    obtain ⟨ht, _⟩ := splitSep_eq_some hsp
    exact ⟨unescapeTagValue vr.1, vr.2, by rw [ht, hesc], hlen⟩

theorem incLast_concat (x : Bytes) (c : Nat) : incLast (x ++ [c]) = x ++ [c + 1] := by
  rw [incLast, List.dropLast_concat, List.getLast?_concat]
  rfl

/-- Skip-ahead safety core: a row lying strictly between a value-`w` row
and the incremented key `w-escaped ++ (sep+1)` must itself carry value
`w`, provided both escaped values are separator-free. -/
theorem skip_same_value {a b r r0 : Bytes}
    (ha : tagSeparatorChar ∉ a) (hb : tagSeparatorChar ∉ b)
    (h1 : lexLt (b ++ tagSeparatorChar :: r0) (a ++ tagSeparatorChar :: r) = true)
    (h2 : lexLt (a ++ tagSeparatorChar :: r) (b ++ [tagSeparatorChar + 1]) = true) :
    a = b := by
  induction a generalizing b with
  | nil =>
    cases b with
    | nil => rfl
    | cons y ys =>
      exfalso
      simp only [List.cons_append, List.nil_append, lexLt, Bool.or_eq_true,
        Bool.and_eq_true, decide_eq_true_eq] at h1 h2
      simp only [List.mem_cons, not_or] at hb
      rcases h1 with h1 | ⟨h1, _⟩
      · rcases h2 with h2 | ⟨h2, _⟩
        · omega
        · exact hb.1 h2
      · exact hb.1 h1.symm
  | cons x xs ihx =>
    simp only [List.mem_cons, not_or] at ha
    cases b with
    | nil =>
      exfalso
      simp only [List.cons_append, List.nil_append, lexLt, Bool.or_eq_true,
        Bool.and_eq_true, decide_eq_true_eq] at h1 h2
      rcases h2 with h2 | ⟨h2, h2r⟩
      · rcases h1 with h1 | ⟨h1, _⟩
        · omega
        · exact ha.1 h1
      · rw [List.append_eq, lexLt_nil_right] at h2r
        exact Bool.false_ne_true h2r
    | cons y ys =>
      simp only [List.mem_cons, not_or] at hb
      simp only [List.cons_append, lexLt, Bool.or_eq_true, Bool.and_eq_true,
        decide_eq_true_eq] at h1 h2
      rcases h1 with h1 | ⟨h1, h1r⟩
      · exfalso
        rcases h2 with h2 | ⟨h2, _⟩
        · omega
        · omega
      · rcases h2 with h2 | ⟨h2, h2r⟩
        · exfalso
          omega
        · rw [h2, ihx ha.2 hb.2 h1r h2r]

theorem slowMatchTSIDs_cons_neg {tf : TagFilter} {it : Bytes} {l : List Bytes}
    (h : (hasPfx tf.pfx it && rowMatchesB tf it) = false) :
    slowMatchTSIDs tf (it :: l) = slowMatchTSIDs tf l := by
  unfold slowMatchTSIDs
  rw [List.filter_cons, if_neg (by simp [h])]

theorem slowMatchTSIDs_cons_pos {tf : TagFilter} {it : Bytes} {l : List Bytes}
    (h : (hasPfx tf.pfx it && rowMatchesB tf it) = true) :
    slowMatchTSIDs tf (it :: l) =
      (parseTSIDs (rowTSIDBytes tf it)).toFinset ∪ slowMatchTSIDs tf l := by
  unfold slowMatchTSIDs
  rw [List.filter_cons, if_pos h]
  rfl

theorem slowMatchTSIDs_append (tf : TagFilter) (l1 l2 : List Bytes) :
    slowMatchTSIDs tf (l1 ++ l2) = slowMatchTSIDs tf l1 ∪ slowMatchTSIDs tf l2 := by
  induction l1 with
  | nil => simp [slowMatchTSIDs]
  | cons it l ih =>
    by_cases h : (hasPfx tf.pfx it && rowMatchesB tf it) = true
    · rw [List.cons_append, slowMatchTSIDs_cons_pos h, slowMatchTSIDs_cons_pos h, ih,
        Finset.union_assoc]
    · have h2 : (hasPfx tf.pfx it && rowMatchesB tf it) = false := by
        cases hv : (hasPfx tf.pfx it && rowMatchesB tf it)
        · rfl
        · exact absurd hv h
      rw [List.cons_append, slowMatchTSIDs_cons_neg h2, slowMatchTSIDs_cons_neg h2, ih]

theorem slowMatchTSIDs_all_nopfx {tf : TagFilter} {l : List Bytes}
    (h : ∀ it ∈ l, hasPfx tf.pfx it = false) : slowMatchTSIDs tf l = ∅ := by
  unfold slowMatchTSIDs
  rw [List.filter_eq_nil_iff.mpr (by intro it hit; simp [h it hit])]
  rfl

theorem pfxRowsTSIDs_cons_neg {p : Bytes} {it : Bytes} {l : List Bytes}
    (h : hasPfx p it = false) : pfxRowsTSIDs p (it :: l) = pfxRowsTSIDs p l := by
  unfold pfxRowsTSIDs
  rw [List.filter_cons, if_neg (by simp [h])]

theorem pfxRowsTSIDs_cons_pos {p : Bytes} {it : Bytes} {l : List Bytes}
    (h : hasPfx p it = true) :
    pfxRowsTSIDs p (it :: l) =
      (parseTSIDs (it.drop p.length)).toFinset ∪ pfxRowsTSIDs p l := by
  unfold pfxRowsTSIDs
  rw [List.filter_cons, if_pos h]
  rfl

theorem pfxRowsTSIDs_all_nopfx {p : Bytes} {l : List Bytes}
    (h : ∀ it ∈ l, hasPfx p it = false) : pfxRowsTSIDs p l = ∅ := by
  unfold pfxRowsTSIDs
  rw [List.filter_eq_nil_iff.mpr (by intro it hit; simp [h it hit])]
  rfl

theorem pfxRowsTSIDs_append (p : Bytes) (l1 l2 : List Bytes) :
    pfxRowsTSIDs p (l1 ++ l2) = pfxRowsTSIDs p l1 ∪ pfxRowsTSIDs p l2 := by
  induction l1 with
  | nil => simp [pfxRowsTSIDs]
  | cons it l ih =>
    by_cases h : hasPfx p it = true
    · rw [List.cons_append, pfxRowsTSIDs_cons_pos h, pfxRowsTSIDs_cons_pos h, ih,
        Finset.union_assoc]
    · have h2 : hasPfx p it = false := by
        cases hv : hasPfx p it
        · rfl
        · exact absurd hv h
      rw [List.cons_append, pfxRowsTSIDs_cons_neg h2, pfxRowsTSIDs_cons_neg h2, ih]

theorem orSuffixLoop_characterization (p2 : Bytes) :
    ∀ (rows : List Bytes) (acc : Finset Nat),
      rows.Pairwise (fun a b => lexLt a b = true) →
      (∀ it ∈ rows, lexLt it p2 = false) →
      (∀ it ∈ rows, hasPfx p2 it = true → (it.drop p2.length).length % 8 = 0) →
      orSuffixLoop p2 rows acc = .ok (acc ∪ pfxRowsTSIDs p2 rows) := by
  intro rows
  induction rows with
  | nil =>
    intro acc _ _ _
    simp [orSuffixLoop, pfxRowsTSIDs]
  | cons item rest ih =>
    intro acc hsort hge hwf
    rw [List.pairwise_cons] at hsort
    by_cases hp : hasPfx p2 item = true
    · have h8 := hwf item (List.mem_cons_self item rest) hp
      rw [orSuffixLoop, if_pos hp, if_pos h8,
        ih _ hsort.2 (fun it hit => hge it (List.mem_cons_of_mem item hit))
          (fun it hit => hwf it (List.mem_cons_of_mem item hit)),
        pfxRowsTSIDs_cons_pos hp, Finset.union_assoc]
    · have hitempfx : hasPfx p2 item = false := by
        cases hv : hasPfx p2 item
        · rfl
        · exact absurd hv hp
      rw [orSuffixLoop, if_neg hp, pfxRowsTSIDs_cons_neg hitempfx,
        pfxRowsTSIDs_all_nopfx (fun x hx =>
          hasPfx_interval (hge item (List.mem_cons_self item rest)) hitempfx
            (hsort.1 x hx))]
      rw [Finset.union_empty]

theorem hasPfx_false_of_lexLt {p x : Bytes} (h : lexLt x p = true) : hasPfx p x = false := by
  cases hv : hasPfx p x
  · rfl
  · rw [not_lexLt_of_hasPfx hv] at h
    exact absurd h (by simp)

theorem pfxRowsTSIDs_seek (p2 : Bytes) (tbl : List Bytes) :
    pfxRowsTSIDs p2 (seek tbl p2) = pfxRowsTSIDs p2 tbl := by
  conv_rhs => rw [← List.takeWhile_append_dropWhile (p := fun it => lexLt it p2) (l := tbl)]
  rw [pfxRowsTSIDs_append,
    pfxRowsTSIDs_all_nopfx (l := tbl.takeWhile (fun it => lexLt it p2))
      (fun x hx => hasPfx_false_of_lexLt (by simpa using List.mem_takeWhile_imp hx)),
    Finset.empty_union]
  rfl

theorem slowMatchTSIDs_seek (tf : TagFilter) (tbl : List Bytes) :
    slowMatchTSIDs tf (seek tbl tf.pfx) = slowMatchTSIDs tf tbl := by
  conv_rhs => rw [← List.takeWhile_append_dropWhile (p := fun it => lexLt it tf.pfx) (l := tbl)]
  rw [slowMatchTSIDs_append,
    slowMatchTSIDs_all_nopfx (l := tbl.takeWhile (fun it => lexLt it tf.pfx))
      (fun x hx => hasPfx_false_of_lexLt (by simpa using List.mem_takeWhile_imp hx)),
    Finset.empty_union]
  rfl

theorem updateTSIDsByOrSuffix_characterization (p2 : Bytes) (tbl : List Bytes)
    (acc : Finset Nat) (hsort : tbl.Pairwise (fun a b => lexLt a b = true))
    (hwf : ∀ it ∈ tbl, hasPfx p2 it = true → (it.drop p2.length).length % 8 = 0) :
    updateTSIDsByOrSuffix p2 tbl acc = .ok (acc ∪ pfxRowsTSIDs p2 tbl) := by
  rw [updateTSIDsByOrSuffix,
    orSuffixLoop_characterization p2 (seek tbl p2) acc
      (hsort.sublist (seek_sublist tbl p2)) (seek_all_ge hsort)
      (fun it hit => hwf it ((seek_sublist tbl p2).subset hit)),
    pfxRowsTSIDs_seek]

theorem addTSIDs_none (ts : List Nat) (acc : Finset Nat) :
    addTSIDs none ts acc = acc ∪ ts.toFinset := by
  rw [addTSIDs]
  congr 1
  rw [show (fun t => filterHas none t) = (fun _ => true) from rfl, List.filter_true]

theorem rowHead_take {p a tsb : Bytes} :
    (p ++ (a ++ tagSeparatorChar :: tsb)).take
      ((p ++ (a ++ tagSeparatorChar :: tsb)).length - tsb.length) =
      (p ++ a) ++ [tagSeparatorChar] := by
  have hitem : p ++ (a ++ tagSeparatorChar :: tsb) =
      ((p ++ a) ++ [tagSeparatorChar]) ++ tsb := by simp
  rw [hitem]
  have hl : (((p ++ a) ++ [tagSeparatorChar]) ++ tsb).length - tsb.length =
      ((p ++ a) ++ [tagSeparatorChar]).length := by
    simp only [List.length_append, List.length_cons, List.length_nil]
    omega
  rw [hl, List.take_left]

theorem slowMatchTSIDs_all_nomatch {tf : TagFilter} {l : List Bytes}
    (h : ∀ it ∈ l, (hasPfx tf.pfx it && rowMatchesB tf it) = false) :
    slowMatchTSIDs tf l = ∅ := by
  unfold slowMatchTSIDs
  rw [List.filter_eq_nil_iff.mpr (by intro it hit; simp [h it hit])]
  rfl

theorem slowScanLoop_characterization (tf : TagFilter) :
    ∀ (n : Nat) (rest : List Bytes) (pm : Bool) (ps : Bytes) (acc : Finset Nat),
      rest.length ≤ n →
      rest.Pairwise (fun a b => lexLt a b = true) →
      (∀ it ∈ rest, lexLt it tf.pfx = false) →
      (∀ it ∈ rest, hasPfx tf.pfx it = true → rowWFB tf.pfx it = true) →
      (pm = true → matchSuffix tf ps = true) →
      slowScanLoop tf none rest pm ps acc = .ok (acc ∪ slowMatchTSIDs tf rest) := by
  intro n
  induction n with
  | zero =>
    intro rest pm ps acc hlen _ _ _ _
    have hnil : rest = [] := List.length_eq_zero.mp (Nat.le_zero.mp hlen)
    subst hnil
    rw [slowScanLoop]
    simp [slowMatchTSIDs]
  | succ n ih =>
    intro rest pm ps acc hlen hsort hge hwf hpm
    cases rest with
    | nil =>
      rw [slowScanLoop]
      simp [slowMatchTSIDs]
    | cons item rest2 =>
      rw [List.pairwise_cons] at hsort
      have hlen2 : rest2.length ≤ n := by
        simp only [List.length_cons] at hlen
        omega
      have hge2 : ∀ it ∈ rest2, lexLt it tf.pfx = false :=
        fun it hit => hge it (List.mem_cons_of_mem item hit)
      have hwf2 : ∀ it ∈ rest2, hasPfx tf.pfx it = true → rowWFB tf.pfx it = true :=
        fun it hit => hwf it (List.mem_cons_of_mem item hit)
      by_cases hp : hasPfx tf.pfx item = true
      · obtain ⟨w, tsb, hitem, h8⟩ :=
          rowWFB_exists hp (hwf item (List.mem_cons_self item rest2) hp)
        have hdrop : item.drop tf.pfx.length =
            escapeTagValue w ++ tagSeparatorChar :: tsb := by
          rw [hitem, List.drop_left]
        have hsp : splitSep (item.drop tf.pfx.length) =
            some (escapeTagValue w, tsb) := by
          rw [hdrop]
          exact splitSep_escaped w tsb
        have hrowB : rowMatchesB tf item =
            matchSuffix tf (escapeTagValue w ++ [tagSeparatorChar]) := by
          rw [rowMatchesB, hsp]
        have hrowT : rowTSIDBytes tf item = tsb := by
          rw [rowTSIDBytes, hsp]
        rw [slowScanLoop, if_pos hp, hsp]
        dsimp only
        rw [if_pos h8]
        by_cases hc1 : (pm && (escapeTagValue w ++ [tagSeparatorChar]) == ps) = true
        · rw [if_pos hc1]
          have hc1' : pm = true ∧ escapeTagValue w ++ [tagSeparatorChar] = ps := by
            simpa using hc1
          have hm : matchSuffix tf (escapeTagValue w ++ [tagSeparatorChar]) = true := by
            rw [hc1'.2]
            exact hpm hc1'.1
          rw [addTSIDs_none,
            ih rest2 pm ps (acc ∪ (parseTSIDs tsb).toFinset) hlen2 hsort.2 hge2 hwf2 hpm,
            slowMatchTSIDs_cons_pos (by simp [hp, hrowB, hm]), hrowT, Finset.union_assoc]
        · rw [if_neg hc1]
          rw [if_neg (by simp : ¬ false = true)]
          by_cases hm : matchSuffix tf (escapeTagValue w ++ [tagSeparatorChar]) = true
          · rw [if_pos hm]
            rw [addTSIDs_none,
              ih rest2 true (escapeTagValue w ++ [tagSeparatorChar])
                (acc ∪ (parseTSIDs tsb).toFinset) hlen2 hsort.2 hge2 hwf2 (fun _ => hm),
              slowMatchTSIDs_cons_pos (by simp [hp, hrowB, hm]), hrowT, Finset.union_assoc]
          · have hmF : matchSuffix tf (escapeTagValue w ++ [tagSeparatorChar]) = false := by
              cases hv : matchSuffix tf (escapeTagValue w ++ [tagSeparatorChar])
              · rfl
              · exact absurd hv hm
            rw [if_neg hm]
            by_cases hcnt : (parseTSIDs tsb).length < MaxTSIDsPerRow / 2
            · rw [if_pos hcnt]
              rw [ih rest2 false ps acc hlen2 hsort.2 hge2 hwf2 (by simp),
                slowMatchTSIDs_cons_neg (by simp [hrowB, hmF])]
            · rw [if_neg hcnt]
              have hkb : item.take (item.length - tsb.length) =
                  (tf.pfx ++ escapeTagValue w) ++ [tagSeparatorChar] := by
                rw [hitem]
                exact rowHead_take
              have hguard : ¬ (item.take (item.length - tsb.length) = [] ∨
                  (item.take (item.length - tsb.length)).getLast?.getD 0 ≠ tagSeparatorChar ∨
                  255 ≤ tagSeparatorChar) := by
                rw [hkb]
                push_neg
                refine ⟨by simp, ?_, by decide⟩
                rw [List.getLast?_concat]
                rfl
              rw [if_neg hguard]
              have hinc : incLast (item.take (item.length - tsb.length)) =
                  (tf.pfx ++ escapeTagValue w) ++ [tagSeparatorChar + 1] := by
                rw [hkb, incLast_concat]
              rw [hinc]
              have hsub := seek_sublist rest2 ((tf.pfx ++ escapeTagValue w) ++ [tagSeparatorChar + 1])
              rw [ih (seek rest2 ((tf.pfx ++ escapeTagValue w) ++ [tagSeparatorChar + 1]))
                false ps acc (le_trans hsub.length_le hlen2)
                (hsort.2.sublist hsub) (fun it hit => hge2 it (hsub.subset hit))
                (fun it hit => hwf2 it (hsub.subset hit)) (by simp)]
              have hskip : slowMatchTSIDs tf
                  (seek rest2 ((tf.pfx ++ escapeTagValue w) ++ [tagSeparatorChar + 1])) =
                  slowMatchTSIDs tf rest2 := by
                conv_rhs => rw [← List.takeWhile_append_dropWhile
                  (p := fun it => lexLt it ((tf.pfx ++ escapeTagValue w) ++ [tagSeparatorChar + 1]))
                  (l := rest2)]
                rw [slowMatchTSIDs_append]
                have htake : ∀ x ∈ rest2.takeWhile
                    (fun it => lexLt it ((tf.pfx ++ escapeTagValue w) ++ [tagSeparatorChar + 1])),
                    (hasPfx tf.pfx x && rowMatchesB tf x) = false := by
                  intro x hx
                  have hxrest : x ∈ rest2 := (List.takeWhile_sublist _).subset hx
                  by_cases hpx : hasPfx tf.pfx x = true
                  · obtain ⟨u, r, hxeq, _⟩ := rowWFB_exists hpx (hwf2 x hxrest hpx)
                    have h1 : lexLt item x = true := hsort.1 x hxrest
                    have h2 : lexLt x ((tf.pfx ++ escapeTagValue w) ++ [tagSeparatorChar + 1]) =
                        true := by
                      simpa using List.mem_takeWhile_imp hx
                    rw [hitem, hxeq] at h1
                    rw [hxeq] at h2
                    rw [lexLt_append_same] at h1
                    rw [List.append_assoc tf.pfx (escapeTagValue w) [tagSeparatorChar + 1],
                      lexLt_append_same] at h2
                    have huw : escapeTagValue u = escapeTagValue w :=
                      skip_same_value (sep_not_mem_escape u) (sep_not_mem_escape w) h1 h2
                    have hrowBx : rowMatchesB tf x =
                        matchSuffix tf (escapeTagValue u ++ [tagSeparatorChar]) := by
                      rw [rowMatchesB]
                      rw [show x.drop tf.pfx.length = escapeTagValue u ++ tagSeparatorChar :: r
                        from by rw [hxeq, List.drop_left], splitSep_escaped]
                    rw [hrowBx, huw, hmF, Bool.and_false]
                  · have hpxF : hasPfx tf.pfx x = false := by
                      cases hv : hasPfx tf.pfx x
                      · rfl
                      · exact absurd hv hpx
                    rw [hpxF, Bool.false_and]
                rw [slowMatchTSIDs_all_nomatch htake, Finset.empty_union]
                rfl
              rw [hskip, slowMatchTSIDs_cons_neg (by simp [hrowB, hmF])]
      · have hpfalse : hasPfx tf.pfx item = false := by
          cases hv : hasPfx tf.pfx item
          · rfl
          · exact absurd hv hp
        rw [slowScanLoop, if_neg hp]
        rw [slowMatchTSIDs_cons_neg (by simp [hpfalse]),
          slowMatchTSIDs_all_nopfx (fun x hx =>
            hasPfx_interval (hge item (List.mem_cons_self item rest2)) hpfalse
              (hsort.1 x hx)),
          Finset.union_empty]

theorem hasPfx_of_append {a b it : Bytes} (h : hasPfx (a ++ b) it = true) :
    hasPfx a it = true := by
  obtain ⟨t, rfl⟩ := exists_of_hasPfx h
  rw [List.append_assoc]
  exact hasPfx_append a (b ++ t)

theorem hasPfx_append_same (a b c : Bytes) :
    hasPfx (a ++ b) (a ++ c) = hasPfx b c := by
  induction a with
  | nil => rfl
  | cons x xs ih => simp [hasPfx, ih]

theorem hasPfx_sepFree {a b : Bytes} (ha : tagSeparatorChar ∉ a)
    (hb : tagSeparatorChar ∉ b) (r : Bytes) :
    hasPfx (a ++ [tagSeparatorChar]) (b ++ tagSeparatorChar :: r) = true ↔ a = b := by
  induction a generalizing b with
  | nil =>
    cases b with
    | nil => simp [hasPfx]
    | cons y ys =>
      simp only [List.mem_cons, not_or] at hb
      simp only [List.nil_append, List.cons_append, hasPfx, Bool.and_eq_true,
        decide_eq_true_eq]
      constructor
      · intro h
        exact absurd h.1 hb.1
      · intro h
        exact absurd h (by simp)
  | cons x xs ih =>
    simp only [List.mem_cons, not_or] at ha
    cases b with
    | nil =>
      simp only [List.cons_append, List.nil_append, hasPfx, Bool.and_eq_true,
        decide_eq_true_eq]
      constructor
      · intro h
        exact absurd h.1.symm ha.1
      · intro h
        exact absurd h (by simp)
    | cons y ys =>
      simp only [List.mem_cons, not_or] at hb
      simp only [List.cons_append, hasPfx, Bool.and_eq_true, decide_eq_true_eq]
      constructor
      · intro h
        rw [h.1, (ih ha.2 hb.2).mp h.2]
      · intro h
        injection h with h1 h2
        exact ⟨h1, (ih ha.2 hb.2).mpr h2⟩

/-- The raw literal alternatives a filter's matcher accepts: the single
literal of a non-regex filter, the anchored alternation's branches of a
regex one (so `tf.orSuffixes` is their escaped image, see
`tagFilterInit`). -/
def filterAlts (tf : TagFilter) : List Bytes :=
  if tf.isRegexp then tf.value.splitOn 124 else [tf.value]

theorem matchRaw_mem {tf : TagFilter} (hneg : tf.isNegative = false) (w : Bytes) :
    matchRaw tf w = true ↔ w ∈ filterAlts tf := by
  rw [matchRaw, hneg, filterAlts]
  cases hr : tf.isRegexp
  · simp
  · simp [regexMatchesRaw, List.contains]

theorem matchSuffix_mem {tf : TagFilter} (hneg : tf.isNegative = false) (w : Bytes) :
    matchSuffix tf (escapeTagValue w ++ [tagSeparatorChar]) = true ↔ w ∈ filterAlts tf := by
  rw [matchSuffix, List.dropLast_concat, unescape_escape]
  exact matchRaw_mem hneg w

/-- Union of a per-alternative row set over a list of alternatives. -/
def unionOver (f : Bytes → Finset Nat) (alts : List Bytes) : Finset Nat :=
  (alts.map f).foldr (fun s t => s ∪ t) ∅

theorem unionOver_cons (f : Bytes → Finset Nat) (a : Bytes) (as : List Bytes) :
    unionOver f (a :: as) = f a ∪ unionOver f as := rfl

theorem mem_unionOver {f : Bytes → Finset Nat} {alts : List Bytes} {x : Nat} :
    x ∈ unionOver f alts ↔ ∃ a ∈ alts, x ∈ f a := by
  induction alts with
  | nil => simp [unionOver]
  | cons a as ih =>
    rw [show unionOver f (a :: as) = f a ∪ unionOver f as from rfl]
    simp [ih]

theorem mem_pfxRowsTSIDs {p : Bytes} {l : List Bytes} {x : Nat} :
    x ∈ pfxRowsTSIDs p l ↔
      ∃ it ∈ l, hasPfx p it = true ∧ x ∈ parseTSIDs (it.drop p.length) := by
  induction l with
  | nil => simp [pfxRowsTSIDs]
  | cons it l ih =>
    by_cases h : hasPfx p it = true
    · rw [pfxRowsTSIDs_cons_pos h]
      simp [ih, h]
    · have hF : hasPfx p it = false := by
        cases hv : hasPfx p it
        · rfl
        · exact absurd hv h
      rw [pfxRowsTSIDs_cons_neg hF]
      simp [ih, hF]

theorem mem_slowMatchTSIDs {tf : TagFilter} {l : List Bytes} {x : Nat} :
    x ∈ slowMatchTSIDs tf l ↔
      ∃ it ∈ l, (hasPfx tf.pfx it && rowMatchesB tf it) = true ∧
        x ∈ parseTSIDs (rowTSIDBytes tf it) := by
  induction l with
  | nil => simp [slowMatchTSIDs]
  | cons it l ih =>
    by_cases h : (hasPfx tf.pfx it && rowMatchesB tf it) = true
    · rw [slowMatchTSIDs_cons_pos h, Finset.mem_union, List.mem_toFinset, ih]
      constructor
      · rintro (hx | ⟨it2, h2, h3, h4⟩)
        · exact ⟨it, List.mem_cons_self it l, h, hx⟩
        · exact ⟨it2, List.mem_cons_of_mem it h2, h3, h4⟩
      · rintro ⟨it2, h2, h3, h4⟩
        rcases List.mem_cons.mp h2 with h5 | h5
        · subst h5
          exact Or.inl h4
        · exact Or.inr ⟨it2, h5, h3, h4⟩
    · have hF : (hasPfx tf.pfx it && rowMatchesB tf it) = false := by
        cases hv : (hasPfx tf.pfx it && rowMatchesB tf it)
        · rfl
        · exact absurd hv h
      rw [slowMatchTSIDs_cons_neg hF, ih]
      constructor
      · rintro ⟨it2, h2, h3, h4⟩
        exact ⟨it2, List.mem_cons_of_mem it h2, h3, h4⟩
      · rintro ⟨it2, h2, h3, h4⟩
        rcases List.mem_cons.mp h2 with h5 | h5
        · subst h5
          rw [hF] at h3
          exact absurd h3 (by simp)
        · exact ⟨it2, h5, h3, h4⟩

theorem wf_p2_general {p : Bytes} (a : Bytes) {tbl : List Bytes}
    (hwf : ∀ it ∈ tbl, hasPfx p it = true → rowWFB p it = true) :
    ∀ it ∈ tbl,
      hasPfx (p ++ escapeTagValue a ++ [tagSeparatorChar]) it = true →
      (it.drop (p ++ escapeTagValue a ++ [tagSeparatorChar]).length).length % 8 = 0 := by
  intro it hit hp2
  have hp : hasPfx p it = true := by
    have h2 := hp2
    rw [List.append_assoc] at h2
    exact hasPfx_of_append h2
  obtain ⟨w, tsb, hitem, h8⟩ := rowWFB_exists hp (hwf it hit hp)
  have hvw : escapeTagValue a = escapeTagValue w := by
    have h2 := hp2
    rw [hitem, List.append_assoc, hasPfx_append_same] at h2
    exact (hasPfx_sepFree (sep_not_mem_escape a) (sep_not_mem_escape w) tsb).mp h2
  have hform : p ++ (escapeTagValue a ++ tagSeparatorChar :: tsb) =
      (p ++ escapeTagValue a ++ [tagSeparatorChar]) ++ tsb := by
    simp
  rw [hitem, ← hvw, hform, List.drop_left]
  exact h8

theorem orSuffixesLoop_characterization (tf : TagFilter) (tbl : List Bytes)
    (hsort : tbl.Pairwise (fun a b => lexLt a b = true))
    (hwf : ∀ it ∈ tbl, hasPfx tf.pfx it = true → rowWFB tf.pfx it = true) :
    ∀ (alts : List Bytes) (acc : Finset Nat),
      orSuffixesLoop tf tbl (alts.map escapeTagValue) acc =
        .ok (acc ∪ unionOver (fun a =>
          pfxRowsTSIDs (tf.pfx ++ escapeTagValue a ++ [tagSeparatorChar]) tbl) alts) := by
  intro alts
  induction alts with
  | nil =>
    intro acc
    rw [List.map_nil, orSuffixesLoop,
      show unionOver (fun a =>
        pfxRowsTSIDs (tf.pfx ++ escapeTagValue a ++ [tagSeparatorChar]) tbl) [] = ∅ from rfl,
      Finset.union_empty]
  | cons a as ih =>
    intro acc
    rw [List.map_cons, orSuffixesLoop,
      updateTSIDsByOrSuffix_characterization (tf.pfx ++ escapeTagValue a ++ [tagSeparatorChar])
        tbl acc hsort (wf_p2_general a hwf)]
    exact (ih (acc ∪ pfxRowsTSIDs (tf.pfx ++ escapeTagValue a ++ [tagSeparatorChar]) tbl)).trans
      (by rw [unionOver_cons, Finset.union_assoc])

theorem slowMatch_eq_unionOver (tf : TagFilter) (hneg : tf.isNegative = false)
    (tbl : List Bytes)
    (hwf : ∀ it ∈ tbl, hasPfx tf.pfx it = true → rowWFB tf.pfx it = true) :
    slowMatchTSIDs tf tbl = unionOver (fun a =>
      pfxRowsTSIDs (tf.pfx ++ escapeTagValue a ++ [tagSeparatorChar]) tbl)
      (filterAlts tf) := by
  ext x
  rw [mem_slowMatchTSIDs, mem_unionOver]
  constructor
  · rintro ⟨it, hit, hm, hx⟩
    rw [Bool.and_eq_true] at hm
    obtain ⟨hp, hmB⟩ := hm
    obtain ⟨w, tsb, hitem, h8⟩ := rowWFB_exists hp (hwf it hit hp)
    have hdrop : it.drop tf.pfx.length = escapeTagValue w ++ tagSeparatorChar :: tsb := by
      rw [hitem, List.drop_left]
    have hsp : splitSep (it.drop tf.pfx.length) = some (escapeTagValue w, tsb) := by
      rw [hdrop]
      exact splitSep_escaped w tsb
    have hmS : matchSuffix tf (escapeTagValue w ++ [tagSeparatorChar]) = true := by
      rw [rowMatchesB, hsp] at hmB
      exact hmB
    have hw : w ∈ filterAlts tf := (matchSuffix_mem hneg w).mp hmS
    have hT : rowTSIDBytes tf it = tsb := by
      rw [rowTSIDBytes, hsp]
    have hform : it = (tf.pfx ++ escapeTagValue w ++ [tagSeparatorChar]) ++ tsb := by
      rw [hitem]
      simp
    refine ⟨w, hw, ?_⟩
    rw [mem_pfxRowsTSIDs]
    refine ⟨it, hit, ?_, ?_⟩
    · rw [hform]
      exact hasPfx_append _ _
    · rw [hform, List.drop_left]
      rw [hT] at hx
      exact hx
  · rintro ⟨a, ha, hxa⟩
    rw [mem_pfxRowsTSIDs] at hxa
    obtain ⟨it, hit, hp2, hx⟩ := hxa
    have hp : hasPfx tf.pfx it = true := by
      have h2 := hp2
      rw [List.append_assoc] at h2
      exact hasPfx_of_append h2
    obtain ⟨u, tsb, hitem, h8⟩ := rowWFB_exists hp (hwf it hit hp)
    have hau : escapeTagValue a = escapeTagValue u := by
      have h2 := hp2
      rw [hitem, List.append_assoc, hasPfx_append_same] at h2
      exact (hasPfx_sepFree (sep_not_mem_escape a) (sep_not_mem_escape u) tsb).mp h2
    have hua : u = a := (escape_injective hau).symm
    have hdrop : it.drop tf.pfx.length = escapeTagValue u ++ tagSeparatorChar :: tsb := by
      rw [hitem, List.drop_left]
    have hsp : splitSep (it.drop tf.pfx.length) = some (escapeTagValue u, tsb) := by
      rw [hdrop]
      exact splitSep_escaped u tsb
    have hmB : rowMatchesB tf it = true := by
      rw [rowMatchesB, hsp]
      exact (matchSuffix_mem hneg u).mpr (by rw [hua]; exact ha)
    have hT : rowTSIDBytes tf it = tsb := by
      rw [rowTSIDBytes, hsp]
    refine ⟨it, hit, by rw [Bool.and_eq_true]; exact ⟨hp, hmB⟩, ?_⟩
    rw [hT]
    have hform : it = (tf.pfx ++ escapeTagValue a ++ [tagSeparatorChar]) ++ tsb := by
      rw [hitem, hau]
      simp
    rw [hform, List.drop_left] at hx
    exact hx

/-- C2 (amended): for every tag filter whose value is a literal or a
regex carrying its extracted literal alternatives in `orSuffixes`
(anchored alternation — in this model every regex, so the filter family is
"literal or regex with extracted alternatives" exactly as the fast path
requires), and every sorted substrate whose rows under the filter's search
byte-string are well-formed (escaped value, separator, whole 8-byte
TSIDs), the fast path that seeks the exact row key
`pfx ++ suffix ++ separator` for each literal suffix
(`updateTSIDsByOrSuffixesOfTagFilter`) and the slow path that scans all
rows under the filter's search byte-string evaluating the matcher per row
(`getTSIDsForTagFilterSlow` with nil filter) produce identical TSID
sets. -/
theorem fast_slow_path_equivalence (name key v : Bytes) (isRegexp : Bool) (tbl : List Bytes)
    (hsort : tbl.Pairwise (fun a b => lexLt a b = true))
    (hwf : ∀ it ∈ tbl, hasPfx (tagFilterInit name key v false isRegexp).pfx it = true →
      rowWFB (tagFilterInit name key v false isRegexp).pfx it = true) :
    ∃ S, updateTSIDsByOrSuffixesOfTagFilter (tagFilterInit name key v false isRegexp) tbl ∅ =
        .ok S ∧
      getTSIDsForTagFilterSlow { tagFilterInit name key v false isRegexp with orSuffixes := [] }
        none tbl = .ok S := by
  refine ⟨unionOver (fun a =>
      pfxRowsTSIDs ((tagFilterInit name key v false isRegexp).pfx ++ escapeTagValue a ++
        [tagSeparatorChar]) tbl) (filterAlts (tagFilterInit name key v false isRegexp)),
    ?_, ?_⟩
  · rw [updateTSIDsByOrSuffixesOfTagFilter, if_neg (by simp [tagFilterInit]),
      show (tagFilterInit name key v false isRegexp).orSuffixes =
        (filterAlts (tagFilterInit name key v false isRegexp)).map escapeTagValue from rfl,
      orSuffixesLoop_characterization _ tbl hsort hwf _ ∅, Finset.empty_union]
  · rw [getTSIDsForTagFilterSlow, if_pos rfl]
    rw [slowScanLoop_characterization
      { tagFilterInit name key v false isRegexp with orSuffixes := [] }
      (seek tbl ({ tagFilterInit name key v false isRegexp with orSuffixes := [] } :
        TagFilter).pfx).length _ false [] ∅ le_rfl
      (hsort.sublist (seek_sublist tbl _)) (seek_all_ge hsort)
      (fun it hit hp => hwf it ((seek_sublist tbl _).subset hit) hp) (by simp)]
    rw [Finset.empty_union, slowMatchTSIDs_seek]
    exact congrArg Except.ok (slowMatch_eq_unionOver
      { tagFilterInit name key v false isRegexp with orSuffixes := [] } rfl tbl hwf)

/-- C2 counterexample: on a substrate containing a corrupt row (no
separator byte in its tail) under the filter's search byte-string, the
slow path aborts with a corruption error while the fast path succeeds with
an empty set — so fast and slow path do NOT agree on arbitrary substrate
content. -/
theorem fast_slow_path_counterexample :
    updateTSIDsByOrSuffixesOfTagFilter (tagFilterInit [109] [107] [97] false false)
        [[1, 109, 3, 107, 1, 5]] ∅ = .ok ∅ ∧
    getTSIDsForTagFilterSlow
        { tagFilterInit [109] [107] [97] false false with orSuffixes := [] } none
        [[1, 109, 3, 107, 1, 5]] = .error (.noSeparator [1, 109, 3, 107, 1, 5]) := by
  constructor
  · decide
  · rw [getTSIDsForTagFilterSlow, if_pos rfl,
      show seek [[1, 109, 3, 107, 1, 5]]
        ({ tagFilterInit [109] [107] [97] false false with orSuffixes := [] } :
          TagFilter).pfx = [[1, 109, 3, 107, 1, 5]] from by decide,
      slowScanLoop, if_pos (by decide),
      show splitSep (([1, 109, 3, 107, 1, 5] : Bytes).drop
        ({ tagFilterInit [109] [107] [97] false false with orSuffixes := [] } :
          TagFilter).pfx.length) = none from by decide]

/-- C2 witness: for the regex filter `key =~ a|b`, whose two extracted
literal alternatives sit in `orSuffixes`, the fast path (two exact-prefix
seeks) and the slow path (one scan with the alternation matcher) agree on
a concrete sorted three-row substrate carrying values `a`, `b` and `c`. -/
theorem fast_slow_path_equivalence_witness :
    ∃ S, updateTSIDsByOrSuffixesOfTagFilter
        (tagFilterInit [109] [107] [97, 124, 98] false true)
        [[1, 109, 3, 107, 1, 97, 1, 0, 0, 0, 0, 0, 0, 0, 7],
          [1, 109, 3, 107, 1, 98, 1, 0, 0, 0, 0, 0, 0, 0, 9],
          [1, 109, 3, 107, 1, 99, 1, 0, 0, 0, 0, 0, 0, 0, 11]] ∅ = .ok S ∧
      getTSIDsForTagFilterSlow
        { tagFilterInit [109] [107] [97, 124, 98] false true with orSuffixes := [] } none
        [[1, 109, 3, 107, 1, 97, 1, 0, 0, 0, 0, 0, 0, 0, 7],
          [1, 109, 3, 107, 1, 98, 1, 0, 0, 0, 0, 0, 0, 0, 9],
          [1, 109, 3, 107, 1, 99, 1, 0, 0, 0, 0, 0, 0, 0, 11]] = .ok S :=
  fast_slow_path_equivalence [109] [107] [97, 124, 98] true
    [[1, 109, 3, 107, 1, 97, 1, 0, 0, 0, 0, 0, 0, 0, 7],
      [1, 109, 3, 107, 1, 98, 1, 0, 0, 0, 0, 0, 0, 0, 9],
      [1, 109, 3, 107, 1, 99, 1, 0, 0, 0, 0, 0, 0, 0, 11]] (by decide) (by decide)
